import Mathlib

/-!
# A verification model of `src/fuzzy_search.py` (drugbank-map)

This file gives a shallow embedding of the matcher `fuzzy_search_drug` from
`src/fuzzy_search.py` together with the library routines it calls:

* `difflib.SequenceMatcher.ratio` (Ratcliff/Obershelp matching blocks),
  `difflib.SequenceMatcher.quick_ratio` / `real_quick_ratio`, and
  `difflib.get_close_matches`;
* `fuzzywuzzy`'s `fuzz.token_sort_ratio` (full processing, token sorting and
  the final scaled ratio, with the equal-strings and empty-string shortcuts
  of `fuzz.ratio`) and `process.extract`;
* the `re`-based containment test `.*<re.escape(query)>.*` used by the
  `"regex"` branch.

Modelling conventions:
* Python `str` is modelled as `String` / `List Char`; `str.lower` is modelled
  on its ASCII fragment (`pyLowerChar`), which is exact for the ASCII inputs
  the matcher is designed for and for every concrete input used below.
* Python floats are modelled as `ℚ`.  All rational arithmetic is written with
  `mkRat`/`Rat.divInt`-based helpers (`qmul`, `qdiv`) so that every definition
  evaluates inside the kernel; lemmas `qmul_eq`/`qdiv_eq` identify them with
  the field operations.
* Python's stable sorts (`list.sort(key=..., reverse=True)`, the
  `sorted`-equivalent `heapq.nlargest`, and `sorted(tokens)`) are modelled by
  `List.insertionSort`, which is stable and has the same observable behavior.
* Exceptions are modelled with `Except SearchError`; `ValueError` carriers
  keep the data the Python message interpolates (the unsupported method name
  and the list of valid options, mirroring
  `Unknown method: {method}. Choose from ...`).
* `difflib.SequenceMatcher`'s autojunk heuristic is inert on sequences of
  fewer than 200 elements and is not modelled; `b2j` popularity therefore
  never marks junk in the modelled regime.
-/

set_option maxRecDepth 8000

namespace FuzzySearch

/-- ASCII whitespace as recognised by Python's `str.strip()` / `str.split()`. -/
def pyIsSpace (c : Char) : Bool :=
  c = ' ' || c = '\t' || c = '\n' || c = '\r' || c = '\x0b' || c = '\x0c'

/-- Python `str.lower` on a single character, ASCII fragment: `A`–`Z` map to
`a`–`z`, everything else is fixed. -/
def pyLowerChar (c : Char) : Char :=
  match c with
  | 'A' => 'a' | 'B' => 'b' | 'C' => 'c' | 'D' => 'd' | 'E' => 'e' | 'F' => 'f'
  | 'G' => 'g' | 'H' => 'h' | 'I' => 'i' | 'J' => 'j' | 'K' => 'k' | 'L' => 'l'
  | 'M' => 'm' | 'N' => 'n' | 'O' => 'o' | 'P' => 'p' | 'Q' => 'q' | 'R' => 'r'
  | 'S' => 's' | 'T' => 't' | 'U' => 'u' | 'V' => 'v' | 'W' => 'w' | 'X' => 'x'
  | 'Y' => 'y' | 'Z' => 'z'
  | c => c

/-- Python `str.strip()`: drop leading and trailing whitespace. -/
def pyStrip (l : List Char) : List Char :=
  ((l.dropWhile pyIsSpace).reverse.dropWhile pyIsSpace).reverse

/-- `query.lower().strip()`, the normalization applied by `fuzzy_search_drug`
(line 78 of `fuzzy_search.py`). -/
def pyNormalize (l : List Char) : List Char :=
  pyStrip (l.map pyLowerChar)

/-- Helper for `splitWs`: `acc` holds the (reversed) token being read. -/
def splitWsAux : List Char → List Char → List (List Char)
  | [], acc => if acc = [] then [] else [acc.reverse]
  | c :: rest, acc =>
    if pyIsSpace c then
      if acc = [] then splitWsAux rest [] else acc.reverse :: splitWsAux rest []
    else splitWsAux rest (c :: acc)

/-- Python `str.split()` with no argument: split on runs of whitespace,
discarding empty pieces. -/
def splitWs (l : List Char) : List (List Char) := splitWsAux l []

/-- ASCII test used by `fuzzywuzzy.utils.asciionly` (characters with code
point ≥ 128 are deleted). -/
def isAsciiChar (c : Char) : Bool := c.toNat < 128

/-- Regex word character `[a-zA-Z0-9_]`, the complement of `\W` used by
`StringProcessor.replace_non_letters_non_numbers_with_whitespace`. -/
def isWordChar (c : Char) : Bool :=
  (97 ≤ c.toNat && c.toNat ≤ 122) || (65 ≤ c.toNat && c.toNat ≤ 90) ||
    (48 ≤ c.toNat && c.toNat ≤ 57) || c = '_'

/-- Replace every non-word character by a space (fuzzywuzzy's
`replace_non_letters_non_numbers_with_whitespace`). -/
def replNonWord (c : Char) : Char :=
  if isWordChar c then c else ' '

/-- `fuzzywuzzy.utils.full_process` with `force_ascii=True`: delete non-ASCII
characters, replace non-word characters by spaces, lower-case, strip. -/
def full_process (s : List Char) : List Char :=
  pyStrip (((s.filter isAsciiChar).map replNonWord).map pyLowerChar)

/-! ## Rational helpers that evaluate in the kernel -/

/-- `a * b` on `ℚ`, computed through `mkRat` so the kernel can reduce it. -/
def qmul (a b : ℚ) : ℚ := mkRat (a.num * b.num) (a.den * b.den)

/-- `a / b` on `ℚ`, computed through `Rat.divInt` so the kernel can reduce it. -/
def qdiv (a b : ℚ) : ℚ := Rat.divInt (a.num * (b.den : ℤ)) ((a.den : ℤ) * b.num)

theorem qmul_eq (a b : ℚ) : qmul a b = a * b := (Rat.mul_eq_mkRat a b).symm

theorem qdiv_eq (a b : ℚ) : qdiv a b = a / b := (Rat.div_def' a b).symm

/-! ## difflib: SequenceMatcher -/

/-- Length of the longest common prefix of two character lists. -/
def commonPrefixLen : List Char → List Char → ℕ
  | a :: as, b :: bs => if a = b then commonPrefixLen as bs + 1 else 0
  | _, _ => 0

/-- `SequenceMatcher.find_longest_match` over the whole of `a` and `b` (no
junk): the longest block `(i, j, k)` with `a[i:i+k] == b[j:j+k]`, ties broken
by smallest `i`, then smallest `j`. -/
def findLongestMatch (a b : List Char) : ℕ × ℕ × ℕ :=
  (List.range a.length).foldl (fun best i =>
    (List.range b.length).foldl (fun best j =>
      let k := commonPrefixLen (a.drop i) (b.drop j)
      if best.2.2 < k then (i, j, k) else best) best) (0, 0, 0)

/-- Total size of `SequenceMatcher.get_matching_blocks`: recursively take the
longest match and recurse on the pieces to its left and right.  The fuel
argument (`a.length + b.length` at the top level) strictly exceeds the
recursion depth, so the value is the same as difflib's. -/
def matchSum : ℕ → List Char → List Char → ℕ
  | 0, _, _ => 0
  | fuel + 1, a, b =>
    let t := findLongestMatch a b
    if t.2.2 = 0 then 0
    else
      matchSum fuel (a.take t.1) (b.take t.2.1) + t.2.2 +
        matchSum fuel (a.drop (t.1 + t.2.2)) (b.drop (t.2.1 + t.2.2))

/-- `difflib._calculate_ratio(matches, length)`. -/
def ratioCalc (m t : ℕ) : ℚ :=
  if t = 0 then 1 else mkRat (2 * m) t

/-- `SequenceMatcher(None, a, b).ratio()`. -/
def ratioSM (a b : List Char) : ℚ :=
  ratioCalc (matchSum (a.length + b.length) a b) (a.length + b.length)

/-- The multiset-intersection count behind `SequenceMatcher.quick_ratio`. -/
def quickRatioMatches : List Char → List Char → ℕ
  | [], _ => 0
  | c :: rest, b =>
    if c ∈ b then quickRatioMatches rest (b.erase c) + 1
    else quickRatioMatches rest b

/-- `SequenceMatcher.quick_ratio()`. -/
def ratioQuick (a b : List Char) : ℚ :=
  ratioCalc (quickRatioMatches a b) (a.length + b.length)

/-- `SequenceMatcher.real_quick_ratio()`. -/
def ratioRealQuick (a b : List Char) : ℚ :=
  ratioCalc (min a.length b.length) (a.length + b.length)

/-! ## Errors -/

/-- The exceptions `fuzzy_search_drug` can raise.  `unknownMethod` carries the
data interpolated into the `ValueError` message of line 123 (the unsupported
method and the three valid options); the other two are the `ValueError`s
raised by `difflib.get_close_matches` for `n <= 0` and for a cutoff outside
`[0.0, 1.0]`. -/
inductive SearchError : Type where
  | unknownMethod (method : String) (options : List String)
  | nNotPositive
  | cutoffOutOfRange
deriving DecidableEq

deriving instance DecidableEq for Except

/-! ## fuzzywuzzy: token_sort_ratio and process.extract -/

/-- Python string `<` (lexicographic by code point), on character lists. -/
def strLtB : List Char → List Char → Bool
  | [], [] => false
  | [], _ :: _ => true
  | _ :: _, [] => false
  | a :: as, b :: bs =>
    if a.toNat < b.toNat then true
    else if b.toNat < a.toNat then false
    else strLtB as bs

/-- Python string `<=` on character lists. -/
def strLeB (a b : List Char) : Bool := !strLtB b a

/-- The token order used for `sorted(tokens)`, as a decidable relation. -/
def tokenLe (a b : List Char) : Prop := strLeB a b = true

instance : DecidableRel tokenLe := fun a b => by
  unfold tokenLe; infer_instance

/-- Python `u" ".join(tokens)`. -/
def joinSpace : List (List Char) → List Char
  | [] => []
  | [t] => t
  | t :: t2 :: ts => t ++ ' ' :: joinSpace (t2 :: ts)

/-- `fuzzywuzzy.fuzz._process_and_sort`: full-process, split into tokens, sort
them, rejoin with single spaces, strip. -/
def process_and_sort (s : List Char) : List Char :=
  pyStrip (joinSpace ((splitWs (full_process s)).insertionSort tokenLe))

/-- `fuzzywuzzy.utils.intr`: Python `int(round(x))`, i.e. round half to even. -/
def intr (q : ℚ) : ℤ :=
  let f := Rat.floor q
  if q < mkRat (2 * f + 1) 2 then f
  else if mkRat (2 * f + 1) 2 < q then f + 1
  else if f % 2 = 0 then f else f + 1

/-- `fuzzywuzzy.fuzz.ratio` on already-processed strings, including the
`check_for_equivalence` (equal strings score 100) and `check_empty_string`
(either string empty scores 0) decorators, then `intr(100 * ratio)`. -/
def ratioFuzz (s1 s2 : List Char) : ℚ :=
  if s1 = s2 then 100
  else if s1.length = 0 || s2.length = 0 then 0
  else ((intr (qmul 100 (ratioSM s1 s2)) : ℤ) : ℚ)

/-- `fuzzywuzzy.fuzz.token_sort_ratio`. -/
def ratioTokenSort (s1 s2 : List Char) : ℚ :=
  ratioFuzz (process_and_sort s1) (process_and_sort s2)

/-- Descending-by-score order on `(choice, score)` pairs, the key order of
`heapq.nlargest(limit, sl, key=lambda i: i[1])`. -/
def pairScoreGe (x y : String × ℚ) : Prop := y.2 ≤ x.2

instance : DecidableRel pairScoreGe := fun x y => by
  unfold pairScoreGe; infer_instance

/-- `fuzzywuzzy.process.extract(query, choices, scorer=fuzz.token_sort_ratio,
limit=limit)`: score every choice against `full_process(query)` (keeping the
`score_cutoff=0` filter), then take the `limit` largest, stably. -/
def extract (query : String) (choices : List String) (limit : ℤ) :
    List (String × ℚ) :=
  let pq := full_process query.toList
  let sl := choices.filterMap (fun c =>
    if 0 ≤ ratioTokenSort pq c.toList then some (c, ratioTokenSort pq c.toList)
    else none)
  if limit ≤ 0 then []
  else (sl.insertionSort pairScoreGe).take limit.toNat

/-! ## difflib.get_close_matches -/

/-- The descending order on `(ratio, string)` pairs used by
`heapq.nlargest` without a key inside `get_close_matches` (full tuple
comparison: ratio first, then the string, both descending). -/
def tupleDescGe (x y : ℚ × String) : Prop :=
  y.1 < x.1 ∨ (x.1 = y.1 ∧ strLeB y.2.toList x.2.toList = true)

instance : DecidableRel tupleDescGe := fun x y => by
  unfold tupleDescGe; infer_instance

/-- `difflib.get_close_matches(word, possibilities, n, cutoff)`, including its
two `ValueError` guards.  A possibility `x` is kept when its
`real_quick_ratio`, `quick_ratio` and `ratio` against `word` (with `x` as
sequence 1 and `word` as sequence 2) all reach `cutoff`; the `n` largest
`(ratio, x)` pairs are returned, best first. -/
def get_close_matches (word : List Char) (possibilities : List String)
    (n : ℤ) (cutoff : ℚ) : Except SearchError (List String) :=
  if n ≤ 0 then .error .nNotPositive
  else if ¬ (0 ≤ cutoff ∧ cutoff ≤ 1) then .error .cutoffOutOfRange
  else
    let result := possibilities.filterMap (fun x =>
      if cutoff ≤ ratioRealQuick x.toList word ∧
          cutoff ≤ ratioQuick x.toList word ∧ cutoff ≤ ratioSM x.toList word
      then some (ratioSM x.toList word, x) else none)
    .ok (((result.insertionSort tupleDescGe).take n.toNat).map (fun p => p.2))

/-! ## The regex branch's candidate test -/

/-- `re.compile(f".*{re.escape(query)}.*").match(drug_name)` viewed as a
Boolean test: `re.escape` makes the query a literal, `match` anchors at the
start, and `.` does not match a newline, so the pattern matches exactly when
the query occurs at some position preceded only by non-newline characters. -/
def regexDotStarMatch (q s : List Char) : Bool :=
  (List.range (s.length + 1)).any (fun i =>
    ((s.take i).all (fun c => c ≠ '\n')) && q.isPrefixOf (s.drop i))

/-- Python list slicing `l[:n]` for an arbitrary integer `n` (a negative `n`
keeps all but the last `-n` elements). -/
def pySlice {α : Type} (n : ℤ) (l : List α) : List α :=
  if n < 0 then l.take ((l.length : ℤ) + n).toNat else l.take n.toNat

/-! ## fuzzy_search_drug -/

/-- A drug-name catalog: an insertion-ordered mapping from drug names to
identifiers (a Python `dict` with unique keys; the model does not need
uniqueness). -/
abbrev DrugMap := List (String × String)

/-- One returned match: `(drug_name, drugbank_id, similarity_score)`. -/
abbrev DrugMatch := String × String × ℚ

/-- `drug_map[drug_name]` (all lookups in the source are with keys taken from
`drug_map.keys()`, so the `KeyError` case is unreachable; the model totalises
it with `""`). -/
def mapGet (m : DrugMap) (k : String) : String :=
  match m.find? (fun p => p.1 == k) with
  | some p => p.2
  | none => ""

/-- Descending-by-score order on result triples, the key order of
`results.sort(key=lambda x: x[2], reverse=True)`. -/
def matchScoreGe (x y : DrugMatch) : Prop := y.2.2 ≤ x.2.2

instance : DecidableRel matchScoreGe := fun x y => by
  unfold matchScoreGe; infer_instance

/-- The sentinel row substituted when no candidate survives (lines 127–129). -/
def sentinel : List DrugMatch := [("", "", 0)]

/-- Final sort by descending score and sentinel substitution (lines 125–130). -/
def finalize (results : List DrugMatch) : List DrugMatch :=
  let r := results.insertionSort matchScoreGe
  if r = [] then sentinel else r

/-- The body of `fuzzy_search_drug` after query normalization: strategy
dispatch, threshold filtering, final sort and sentinel substitution. -/
def fuzzySearchCore (q : String) (drug_map : DrugMap) (method : String)
    (threshold : ℚ) (max_results : ℤ) : Except SearchError (List DrugMatch) :=
  if method = "fuzzywuzzy" then
    let ms := extract q (drug_map.map (fun p => p.1)) max_results
    .ok (finalize (ms.filterMap (fun m =>
      if threshold ≤ m.2 then some (m.1, mapGet drug_map m.1, m.2) else none)))
  else if method = "difflib" then
    match get_close_matches q.toList (drug_map.map (fun p => p.1)) max_results
        (qdiv threshold 100) with
    | .error e => .error e
    | .ok ms =>
      .ok (finalize ((ms.map (fun dn =>
        (dn, mapGet drug_map dn, qmul (ratioSM q.toList dn.toList) 100))).insertionSort
          matchScoreGe))
  else if method = "regex" then
    let ms := (drug_map.map (fun p => p.1)).filterMap (fun dn =>
      if regexDotStarMatch q.toList dn.toList then
        if threshold ≤ qmul (ratioSM q.toList dn.toList) 100 then
          some (dn, qmul (ratioSM q.toList dn.toList) 100)
        else none
      else none)
    .ok (finalize ((pySlice max_results (ms.insertionSort pairScoreGe)).map
      (fun p => (p.1, mapGet drug_map p.1, p.2))))
  else .error (.unknownMethod method ["fuzzywuzzy", "difflib", "regex"])

/-- `fuzzy_search_drug(query, drug_map, method, threshold, max_results)` from
`src/fuzzy_search.py`: normalize the query (`query.lower().strip()`), then run
the selected strategy. -/
def fuzzy_search_drug (query : String) (drug_map : DrugMap)
    (method : String := "fuzzywuzzy") (threshold : ℚ := 70)
    (max_results : ℤ := 5) : Except SearchError (List DrugMatch) :=
  fuzzySearchCore (String.mk (pyNormalize query.toList)) drug_map method
    threshold max_results

/-! ## Bounds for the similarity ratios -/

theorem commonPrefixLen_le_left : ∀ a b : List Char, commonPrefixLen a b ≤ a.length
  | [], _ => by simp [commonPrefixLen]
  | _ :: _, [] => by simp [commonPrefixLen]
  | a :: as, b :: bs => by
    simp only [commonPrefixLen, List.length_cons]
    split
    · have h := commonPrefixLen_le_left as bs
      omega
    · omega

theorem commonPrefixLen_le_right : ∀ a b : List Char, commonPrefixLen a b ≤ b.length
  | [], _ => by simp [commonPrefixLen]
  | _ :: _, [] => by simp [commonPrefixLen]
  | a :: as, b :: bs => by
    simp only [commonPrefixLen, List.length_cons]
    split
    · have h := commonPrefixLen_le_right as bs
      omega
    · omega

theorem findLongestMatch_le (a b : List Char) :
    (findLongestMatch a b).1 + (findLongestMatch a b).2.2 ≤ a.length ∧
      (findLongestMatch a b).2.1 + (findLongestMatch a b).2.2 ≤ b.length := by
  unfold findLongestMatch
  refine @List.foldlRecOn _ _
    (fun t : ℕ × ℕ × ℕ => t.1 + t.2.2 ≤ a.length ∧ t.2.1 + t.2.2 ≤ b.length) _ _ _ ?_ ?_
  · simp
  · intro best hbest i hi
    refine @List.foldlRecOn _ _
      (fun t : ℕ × ℕ × ℕ => t.1 + t.2.2 ≤ a.length ∧ t.2.1 + t.2.2 ≤ b.length) _ _ _ hbest ?_
    intro best2 hbest2 j hj
    dsimp only
    split
    · dsimp only
      have hi' : i < a.length := List.mem_range.mp hi
      have hj' : j < b.length := List.mem_range.mp hj
      have h1 := commonPrefixLen_le_left (a.drop i) (b.drop j)
      have h2 := commonPrefixLen_le_right (a.drop i) (b.drop j)
      simp only [List.length_drop] at h1 h2
      exact ⟨by omega, by omega⟩
    · exact hbest2

theorem matchSum_le_left : ∀ (fuel : ℕ) (a b : List Char),
    matchSum fuel a b ≤ a.length
  | 0, _, _ => Nat.zero_le _
  | fuel + 1, a, b => by
    have hf := findLongestMatch_le a b
    unfold matchSum
    dsimp only
    split
    · omega
    · have h1 := matchSum_le_left fuel (a.take (findLongestMatch a b).1)
        (b.take (findLongestMatch a b).2.1)
      have h2 := matchSum_le_left fuel
        (a.drop ((findLongestMatch a b).1 + (findLongestMatch a b).2.2))
        (b.drop ((findLongestMatch a b).2.1 + (findLongestMatch a b).2.2))
      simp only [List.length_take, List.length_drop] at h1 h2
      omega

theorem matchSum_le_right : ∀ (fuel : ℕ) (a b : List Char),
    matchSum fuel a b ≤ b.length
  | 0, _, _ => Nat.zero_le _
  | fuel + 1, a, b => by
    have hf := findLongestMatch_le a b
    unfold matchSum
    dsimp only
    split
    · omega
    · have h1 := matchSum_le_right fuel (a.take (findLongestMatch a b).1)
        (b.take (findLongestMatch a b).2.1)
      have h2 := matchSum_le_right fuel
        (a.drop ((findLongestMatch a b).1 + (findLongestMatch a b).2.2))
        (b.drop ((findLongestMatch a b).2.1 + (findLongestMatch a b).2.2))
      simp only [List.length_take, List.length_drop] at h1 h2
      omega

theorem ratioCalc_nonneg (m t : ℕ) : 0 ≤ ratioCalc m t := by
  unfold ratioCalc
  split
  · norm_num
  · rw [Rat.mkRat_eq_divInt, Rat.divInt_eq_div]
    positivity

theorem ratioCalc_le_one {m t : ℕ} (h : 2 * m ≤ t) : ratioCalc m t ≤ 1 := by
  unfold ratioCalc
  split
  · exact le_refl 1
  · rename_i ht
    rw [Rat.mkRat_eq_divInt, Rat.divInt_eq_div]
    rw [div_le_one (by exact_mod_cast Nat.pos_of_ne_zero ht)]
    exact_mod_cast h

theorem ratioSM_nonneg (a b : List Char) : 0 ≤ ratioSM a b :=
  ratioCalc_nonneg _ _

theorem ratioSM_le_one (a b : List Char) : ratioSM a b ≤ 1 := by
  refine ratioCalc_le_one ?_
  have h1 := matchSum_le_left (a.length + b.length) a b
  have h2 := matchSum_le_right (a.length + b.length) a b
  omega

theorem ratioQuick_nonneg (a b : List Char) : 0 ≤ ratioQuick a b :=
  ratioCalc_nonneg _ _

theorem ratioRealQuick_nonneg (a b : List Char) : 0 ≤ ratioRealQuick a b :=
  ratioCalc_nonneg _ _

theorem ratFloor_eq_floor (q : ℚ) : Rat.floor q = ⌊q⌋ := rfl

theorem intr_nonneg {q : ℚ} (h0 : 0 ≤ q) : 0 ≤ intr q := by
  have hf : (0 : ℤ) ≤ ⌊q⌋ := Int.floor_nonneg.mpr h0
  unfold intr
  rw [ratFloor_eq_floor]
  dsimp only
  split
  · exact hf
  · split
    · omega
    · split
      · exact hf
      · omega

theorem intr_le_100 {q : ℚ} (h100 : q ≤ 100) : intr q ≤ 100 := by
  have hfle : (⌊q⌋ : ℚ) ≤ q := Int.floor_le q
  have hf100 : ⌊q⌋ ≤ 100 := by
    have : (⌊q⌋ : ℚ) ≤ 100 := le_trans hfle h100
    exact_mod_cast this
  unfold intr
  dsimp only
  rw [ratFloor_eq_floor]
  have hhalf : mkRat (2 * ⌊q⌋ + 1) 2 = ((2 * ⌊q⌋ + 1 : ℤ) : ℚ) / 2 := by
    rw [Rat.mkRat_eq_divInt, Rat.divInt_eq_div]
    norm_num
  split
  · exact hf100
  · rename_i hcond
    push_neg at hcond
    rw [hhalf] at hcond
    have h99 : ⌊q⌋ ≤ 99 := by
      by_contra hgt
      push_neg at hgt
      have : (100 : ℚ) ≤ ⌊q⌋ := by exact_mod_cast hgt
      have : (2 * (100 : ℚ) + 1) / 2 ≤ q := by
        refine le_trans ?_ hcond
        push_cast
        gcongr
      linarith
    split
    · omega
    · split
      · omega
      · omega

theorem ratioFuzz_nonneg (s1 s2 : List Char) : 0 ≤ ratioFuzz s1 s2 := by
  unfold ratioFuzz
  split
  · norm_num
  · split
    · norm_num
    · have h : (0 : ℤ) ≤ intr (qmul 100 (ratioSM s1 s2)) := by
        refine intr_nonneg ?_
        rw [qmul_eq]
        have := ratioSM_nonneg s1 s2
        positivity
      exact_mod_cast h

theorem ratioFuzz_le_100 (s1 s2 : List Char) : ratioFuzz s1 s2 ≤ 100 := by
  unfold ratioFuzz
  split
  · norm_num
  · split
    · norm_num
    · have h : intr (qmul 100 (ratioSM s1 s2)) ≤ 100 := by
        refine intr_le_100 ?_
        rw [qmul_eq]
        have h1 := ratioSM_le_one s1 s2
        nlinarith [ratioSM_nonneg s1 s2]
      exact_mod_cast h

theorem ratioTokenSort_nonneg (s1 s2 : List Char) : 0 ≤ ratioTokenSort s1 s2 :=
  ratioFuzz_nonneg _ _

theorem ratioTokenSort_le_100 (s1 s2 : List Char) : ratioTokenSort s1 s2 ≤ 100 :=
  ratioFuzz_le_100 _ _

theorem scoreSM_nonneg (a b : List Char) : 0 ≤ qmul (ratioSM a b) 100 := by
  rw [qmul_eq]
  have := ratioSM_nonneg a b
  positivity

theorem scoreSM_le_100 (a b : List Char) : qmul (ratioSM a b) 100 ≤ 100 := by
  rw [qmul_eq]
  have h1 := ratioSM_le_one a b
  nlinarith [ratioSM_nonneg a b]

/-! ## Structure of `finalize` and the strategy branches -/

theorem mem_of_mem_finalize {rs : List DrugMatch} {x : DrugMatch}
    (hx : x ∈ finalize rs) : x ∈ rs ∨ x = ("", "", 0) := by
  unfold finalize at hx
  dsimp only at hx
  split at hx
  · right
    simpa [sentinel] using hx
  · left
    exact (List.perm_insertionSort matchScoreGe rs).subset hx

theorem finalize_sorted (rs : List DrugMatch) :
    List.Sorted matchScoreGe (finalize rs) := by
  unfold finalize
  dsimp only
  split
  · simp [sentinel]
  · haveI htot : IsTotal DrugMatch matchScoreGe := ⟨fun x y => le_total y.2.2 x.2.2⟩
    haveI htr : IsTrans DrugMatch matchScoreGe := ⟨fun _ _ _ h1 h2 => le_trans h2 h1⟩
    exact List.sorted_insertionSort matchScoreGe rs

theorem finalize_length_le {rs : List DrugMatch} {n : ℕ} (hn : 1 ≤ n)
    (hrs : rs.length ≤ n) : (finalize rs).length ≤ n := by
  unfold finalize
  dsimp only
  split
  · simpa [sentinel]
  · rw [(List.perm_insertionSort matchScoreGe rs).length_eq]
    exact hrs

theorem finalize_eq_sentinel {rs : List DrugMatch} (h : rs = []) :
    finalize rs = sentinel := by
  subst h
  rfl

theorem core_fw_eq (q : String) (cat : DrugMap) (thr : ℚ) (mr : ℤ) :
    fuzzySearchCore q cat "fuzzywuzzy" thr mr =
      .ok (finalize ((extract q (cat.map (fun p => p.1)) mr).filterMap (fun m =>
        if thr ≤ m.2 then some (m.1, mapGet cat m.1, m.2) else none))) := by
  simp [fuzzySearchCore]

theorem core_difflib_eq (q : String) (cat : DrugMap) (thr : ℚ) (mr : ℤ) :
    fuzzySearchCore q cat "difflib" thr mr =
      match get_close_matches q.toList (cat.map (fun p => p.1)) mr
          (qdiv thr 100) with
      | .error e => .error e
      | .ok ms =>
        .ok (finalize ((ms.map (fun dn =>
          (dn, mapGet cat dn, qmul (ratioSM q.toList dn.toList) 100))).insertionSort
            matchScoreGe)) := by
  simp [fuzzySearchCore]

theorem core_regex_eq (q : String) (cat : DrugMap) (thr : ℚ) (mr : ℤ) :
    fuzzySearchCore q cat "regex" thr mr =
      .ok (finalize ((pySlice mr
        (((cat.map (fun p => p.1)).filterMap (fun dn =>
          if regexDotStarMatch q.toList dn.toList then
            if thr ≤ qmul (ratioSM q.toList dn.toList) 100 then
              some (dn, qmul (ratioSM q.toList dn.toList) 100)
            else none
          else none)).insertionSort pairScoreGe)).map
        (fun p => (p.1, mapGet cat p.1, p.2)))) := by
  simp [fuzzySearchCore]

theorem core_unknown_eq (q : String) (cat : DrugMap) (method : String)
    (thr : ℚ) (mr : ℤ) (h1 : method ≠ "fuzzywuzzy") (h2 : method ≠ "difflib")
    (h3 : method ≠ "regex") :
    fuzzySearchCore q cat method thr mr =
      .error (.unknownMethod method ["fuzzywuzzy", "difflib", "regex"]) := by
  simp [fuzzySearchCore, h1, h2, h3]

theorem extract_mem {q : String} {choices : List String} {limit : ℤ}
    {p : String × ℚ} (hp : p ∈ extract q choices limit) :
    p.1 ∈ choices ∧ p.2 = ratioTokenSort (full_process q.toList) p.1.toList := by
  unfold extract at hp
  dsimp only at hp
  split at hp
  · simp at hp
  · have hp1 := List.take_subset _ _ hp
    have hp2 := (List.perm_insertionSort pairScoreGe _).subset hp1
    rw [List.mem_filterMap] at hp2
    obtain ⟨c, hc, hsome⟩ := hp2
    split at hsome
    · cases hsome
      refine ⟨hc, ?_⟩
      dsimp only
    · cases hsome

theorem gcm_error_nNotPositive {w : List Char} {ps : List String} {n : ℤ}
    {c : ℚ} (h : n ≤ 0) :
    get_close_matches w ps n c = .error .nNotPositive := by
  unfold get_close_matches
  rw [if_pos h]

theorem gcm_error_cutoff {w : List Char} {ps : List String} {n : ℤ} {c : ℚ}
    (h1 : 0 < n) (h2 : ¬ (0 ≤ c ∧ c ≤ 1)) :
    get_close_matches w ps n c = .error .cutoffOutOfRange := by
  unfold get_close_matches
  rw [if_neg (by omega), if_pos h2]

theorem gcm_ok {w : List Char} {ps : List String} {n : ℤ} {c : ℚ}
    (h1 : 0 < n) (h2 : 0 ≤ c ∧ c ≤ 1) :
    get_close_matches w ps n c =
      .ok ((((ps.filterMap (fun x =>
        if c ≤ ratioRealQuick x.toList w ∧ c ≤ ratioQuick x.toList w ∧
            c ≤ ratioSM x.toList w
        then some (ratioSM x.toList w, x) else none)).insertionSort
          tupleDescGe).take n.toNat).map (fun p => p.2)) := by
  unfold get_close_matches
  rw [if_neg (by omega), if_neg (by tauto)]

theorem gcm_mem {w : List Char} {ps : List String} {n : ℤ} {c : ℚ}
    {ms : List String} {dn : String}
    (hok : get_close_matches w ps n c = .ok ms) (hdn : dn ∈ ms) :
    dn ∈ ps ∧ c ≤ ratioSM dn.toList w := by
  unfold get_close_matches at hok
  split at hok
  · cases hok
  · split at hok
    · cases hok
    · dsimp only at hok
      cases hok
      rw [List.mem_map] at hdn
      obtain ⟨pr, hpr, rfl⟩ := hdn
      have h1 := List.take_subset _ _ hpr
      have h2 := (List.perm_insertionSort tupleDescGe _).subset h1
      rw [List.mem_filterMap] at h2
      obtain ⟨x, hx, hsome⟩ := h2
      split at hsome
      · rename_i hcond
        cases hsome
        exact ⟨hx, hcond.2.2⟩
      · cases hsome

theorem pySlice_subset {α : Type} (n : ℤ) (l : List α) : pySlice n l ⊆ l := by
  unfold pySlice
  split
  · exact List.take_subset _ _
  · exact List.take_subset _ _

theorem core_ok_cases {q : String} {cat : DrugMap} {method : String} {thr : ℚ}
    {mr : ℤ} {l : List DrugMatch}
    (hok : fuzzySearchCore q cat method thr mr = .ok l) :
    method = "fuzzywuzzy" ∨ method = "difflib" ∨ method = "regex" := by
  by_contra h
  push_neg at h
  rw [core_unknown_eq q cat method thr mr h.1 h.2.1 h.2.2] at hok
  cases hok

theorem core_scores {q : String} {cat : DrugMap} {method : String} {thr : ℚ}
    {mr : ℤ} {l : List DrugMatch}
    (hok : fuzzySearchCore q cat method thr mr = .ok l) :
    ∀ x ∈ l, 0 ≤ x.2.2 ∧ x.2.2 ≤ 100 := by
  rcases core_ok_cases hok with hm | hm | hm <;> subst hm
  · rw [core_fw_eq] at hok
    injection hok with hok
    subst hok
    intro x hx
    rcases mem_of_mem_finalize hx with hx2 | rfl
    · rw [List.mem_filterMap] at hx2
      obtain ⟨m, hm2, hsome⟩ := hx2
      split at hsome
      · cases hsome
        have hval := (extract_mem hm2).2
        dsimp only
        rw [hval]
        exact ⟨ratioTokenSort_nonneg _ _, ratioTokenSort_le_100 _ _⟩
      · cases hsome
    · exact ⟨le_refl 0, by norm_num⟩
  · rw [core_difflib_eq] at hok
    rcases hgcm : get_close_matches q.toList (cat.map (fun p => p.1)) mr
        (qdiv thr 100) with e | ms
    · rw [hgcm] at hok
      cases hok
    · rw [hgcm] at hok
      dsimp only at hok
      injection hok with hok
      subst hok
      intro x hx
      rcases mem_of_mem_finalize hx with hx2 | rfl
      · have hx3 := (List.perm_insertionSort matchScoreGe _).subset hx2
        rw [List.mem_map] at hx3
        obtain ⟨dn, _, rfl⟩ := hx3
        exact ⟨scoreSM_nonneg _ _, scoreSM_le_100 _ _⟩
      · exact ⟨le_refl 0, by norm_num⟩
  · rw [core_regex_eq] at hok
    injection hok with hok
    subst hok
    intro x hx
    rcases mem_of_mem_finalize hx with hx2 | rfl
    · rw [List.mem_map] at hx2
      obtain ⟨p, hp, rfl⟩ := hx2
      have hp2 := (List.perm_insertionSort pairScoreGe _).subset
        (pySlice_subset _ _ hp)
      rw [List.mem_filterMap] at hp2
      obtain ⟨dn, _, hsome⟩ := hp2
      split at hsome
      · split at hsome
        · cases hsome
          exact ⟨scoreSM_nonneg _ _, scoreSM_le_100 _ _⟩
        · cases hsome
      · cases hsome
    · exact ⟨le_refl 0, by norm_num⟩

theorem core_sorted {q : String} {cat : DrugMap} {method : String} {thr : ℚ}
    {mr : ℤ} {l : List DrugMatch}
    (hok : fuzzySearchCore q cat method thr mr = .ok l) :
    List.Sorted matchScoreGe l := by
  rcases core_ok_cases hok with hm | hm | hm <;> subst hm
  · rw [core_fw_eq] at hok
    injection hok with hok
    subst hok
    exact finalize_sorted _
  · rw [core_difflib_eq] at hok
    rcases hgcm : get_close_matches q.toList (cat.map (fun p => p.1)) mr
        (qdiv thr 100) with e | ms
    · rw [hgcm] at hok
      cases hok
    · rw [hgcm] at hok
      dsimp only at hok
      injection hok with hok
      subst hok
      exact finalize_sorted _
  · rw [core_regex_eq] at hok
    injection hok with hok
    subst hok
    exact finalize_sorted _

theorem pySlice_length_le {α : Type} {n : ℤ} (hn : 0 ≤ n) (l : List α) :
    (pySlice n l).length ≤ n.toNat := by
  unfold pySlice
  rw [if_neg (by omega)]
  simp [List.length_take]

theorem extract_length_le (q : String) (choices : List String) (limit : ℤ) :
    (extract q choices limit).length ≤ limit.toNat := by
  unfold extract
  dsimp only
  split
  · simp
  · simp

theorem core_length {q : String} {cat : DrugMap} {method : String} {thr : ℚ}
    {mr : ℤ} {l : List DrugMatch}
    (hok : fuzzySearchCore q cat method thr mr = .ok l) (hmr : 0 < mr) :
    (l.length : ℤ) ≤ mr := by
  have hcast : ((mr.toNat : ℤ)) = mr := Int.toNat_of_nonneg (le_of_lt hmr)
  have hone : 1 ≤ mr.toNat := by omega
  rcases core_ok_cases hok with hm | hm | hm <;> subst hm
  · rw [core_fw_eq] at hok
    injection hok with hok
    subst hok
    have hlen : (extract q (cat.map (fun p => p.1)) mr).length ≤ mr.toNat :=
      extract_length_le _ _ _
    have hfm := List.length_filterMap_le (fun m =>
      if thr ≤ m.2 then some (m.1, mapGet cat m.1, m.2) else none)
      (extract q (cat.map (fun p => p.1)) mr)
    have := finalize_length_le hone (le_trans hfm hlen)
    omega
  · rw [core_difflib_eq] at hok
    rcases hgcm : get_close_matches q.toList (cat.map (fun p => p.1)) mr
        (qdiv thr 100) with e | ms
    · rw [hgcm] at hok
      cases hok
    · rw [hgcm] at hok
      dsimp only at hok
      injection hok with hok
      subst hok
      have hms : ms.length ≤ mr.toNat := by
        unfold get_close_matches at hgcm
        split at hgcm
        · cases hgcm
        · split at hgcm
          · cases hgcm
          · dsimp only at hgcm
            injection hgcm with hgcm
            subst hgcm
            simp [List.length_take]
      have hlen : ((ms.map (fun dn =>
          (dn, mapGet cat dn, qmul (ratioSM q.toList dn.toList) 100))).insertionSort
            matchScoreGe).length ≤ mr.toNat := by
        rw [(List.perm_insertionSort matchScoreGe _).length_eq, List.length_map]
        exact hms
      have := finalize_length_le hone hlen
      omega
  · rw [core_regex_eq] at hok
    injection hok with hok
    subst hok
    set srt := ((cat.map (fun p => p.1)).filterMap (fun dn =>
      if regexDotStarMatch q.toList dn.toList then
        if thr ≤ qmul (ratioSM q.toList dn.toList) 100 then
          some (dn, qmul (ratioSM q.toList dn.toList) 100)
        else none
      else none)).insertionSort pairScoreGe with hsrt
    have hlen := pySlice_length_le (le_of_lt hmr) srt
    have hmap : ((pySlice mr srt).map
        (fun p : String × ℚ => (p.1, mapGet cat p.1, p.2))).length ≤ mr.toNat := by
      rw [List.length_map]
      exact hlen
    have := finalize_length_le hone hmap
    omega

/-! ## Normalization: character-level facts and idempotence -/

theorem pyLowerChar_idem (c : Char) :
    pyLowerChar (pyLowerChar c) = pyLowerChar c := by
  by_cases h : pyLowerChar c = c
  · rw [h]
    exact h
  · unfold pyLowerChar at h
    split at h <;> first | decide | exact absurd rfl h

theorem pyIsSpace_pyLowerChar (c : Char) :
    pyIsSpace (pyLowerChar c) = pyIsSpace c := by
  by_cases h : pyLowerChar c = c
  · rw [h]
  · unfold pyLowerChar at h
    split at h <;> first | decide | exact absurd rfl h

theorem isWordChar_pyLowerChar (c : Char) :
    isWordChar (pyLowerChar c) = isWordChar c := by
  by_cases h : pyLowerChar c = c
  · rw [h]
  · unfold pyLowerChar at h
    split at h <;> first | decide | exact absurd rfl h

theorem isAsciiChar_pyLowerChar (c : Char) :
    isAsciiChar (pyLowerChar c) = isAsciiChar c := by
  by_cases h : pyLowerChar c = c
  · rw [h]
  · unfold pyLowerChar at h
    split at h <;> first | decide | exact absurd rfl h

theorem dropWhile_cons_head {p : Char → Bool} :
    ∀ {l : List Char} {x : Char} {xs : List Char},
      l.dropWhile p = x :: xs → p x = false := by
  intro l
  induction l with
  | nil => intro x xs h; simp [List.dropWhile] at h
  | cons c rest ih =>
    intro x xs h
    rw [List.dropWhile_cons] at h
    split at h
    · exact ih h
    · rename_i hc
      cases h
      simpa using hc

theorem dropWhile_dropWhile (p : Char → Bool) (l : List Char) :
    (l.dropWhile p).dropWhile p = l.dropWhile p := by
  rcases h : l.dropWhile p with _ | ⟨x, xs⟩
  · simp
  · rw [List.dropWhile_cons, dropWhile_cons_head h]
    simp

theorem pyStripFront (l : List Char) : pyStrip l <+: l.dropWhile pyIsSpace := by
  have h := List.dropWhile_suffix (l := (l.dropWhile pyIsSpace).reverse) pyIsSpace
  have h2 := h.reverse
  rw [List.reverse_reverse] at h2
  exact h2

theorem pyStrip_reverse_eq (l : List Char) :
    (pyStrip l).reverse = ((l.dropWhile pyIsSpace).reverse).dropWhile pyIsSpace := by
  unfold pyStrip
  rw [List.reverse_reverse]

theorem pyStrip_idem (l : List Char) : pyStrip (pyStrip l) = pyStrip l := by
  have hds : (pyStrip l).dropWhile pyIsSpace = pyStrip l := by
    rcases hS : pyStrip l with _ | ⟨x, xs⟩
    · simp
    · obtain ⟨t, ht⟩ := pyStripFront l
      rw [hS] at ht
    --  l.dropWhile = x :: (xs ++ t)
      have hx : pyIsSpace x = false := by
        refine @dropWhile_cons_head pyIsSpace l x (xs ++ t) ?_
        rw [← ht]
        simp
      rw [List.dropWhile_cons, hx]
      simp
  show ((((pyStrip l).dropWhile pyIsSpace).reverse).dropWhile pyIsSpace).reverse =
    pyStrip l
  rw [hds, pyStrip_reverse_eq, dropWhile_dropWhile, ← pyStrip_reverse_eq,
    List.reverse_reverse]

theorem map_dropWhile_comm (l : List Char) :
    (l.dropWhile pyIsSpace).map pyLowerChar =
      (l.map pyLowerChar).dropWhile pyIsSpace := by
  rw [List.dropWhile_map,
    show pyIsSpace ∘ pyLowerChar = pyIsSpace from funext pyIsSpace_pyLowerChar]

theorem map_pyStrip_comm (l : List Char) :
    (pyStrip l).map pyLowerChar = pyStrip (l.map pyLowerChar) := by
  unfold pyStrip
  rw [List.map_reverse, map_dropWhile_comm, List.map_reverse,
    map_dropWhile_comm]

theorem map_pyLowerChar_idem (l : List Char) :
    (l.map pyLowerChar).map pyLowerChar = l.map pyLowerChar := by
  rw [List.map_map]
  refine List.map_congr_left ?_
  intro c _
  exact pyLowerChar_idem c

theorem pyNormalize_idem (l : List Char) :
    pyNormalize (pyNormalize l) = pyNormalize l := by
  unfold pyNormalize
  rw [map_pyStrip_comm, map_pyLowerChar_idem, pyStrip_idem]

/-! ## Claim theorems: C5, C7, C9 -/

/-- C7: for every query, every catalog, every valid strategy, every threshold
and every max_results, every score in the list returned by
`fuzzy_search_drug` lies in the closed interval `[0, 100]` (including the
sentinel's `0.0`). -/
theorem claim_C7_scores_in_range (query : String) (cat : DrugMap)
    (method : String) (thr : ℚ) (mr : ℤ) (l : List DrugMatch)
    (hok : fuzzy_search_drug query cat method thr mr = .ok l) :
    ∀ x ∈ l, 0 ≤ x.2.2 ∧ x.2.2 ≤ 100 := by
  unfold fuzzy_search_drug at hok
  exact core_scores hok

theorem claim_C7_witness :
    fuzzy_search_drug "aspirin" [("aspirin", "DB00945")] "fuzzywuzzy" 70 5 =
      .ok [("aspirin", "DB00945", 100)] ∧
    (∀ x ∈ [(("aspirin" : String), ("DB00945" : String), (100 : ℚ))],
      0 ≤ x.2.2 ∧ x.2.2 ≤ 100) :=
  ⟨by decide, claim_C7_scores_in_range "aspirin" [("aspirin", "DB00945")]
    "fuzzywuzzy" 70 5 [("aspirin", "DB00945", 100)] (by decide)⟩

/-- C5: for every valid strategy and all inputs, the list returned by
`fuzzy_search_drug` is sorted by non-increasing score, and for positive
max_results its length never exceeds max_results. -/
theorem claim_C5_sorted_and_capped (query : String) (cat : DrugMap)
    (method : String) (thr : ℚ) (mr : ℤ) (l : List DrugMatch)
    (hok : fuzzy_search_drug query cat method thr mr = .ok l) :
    List.Sorted (fun x y : DrugMatch => y.2.2 ≤ x.2.2) l ∧
      (0 < mr → (l.length : ℤ) ≤ mr) := by
  unfold fuzzy_search_drug at hok
  exact ⟨core_sorted hok, fun h => core_length hok h⟩

theorem claim_C5_witness :
    fuzzy_search_drug "ibuprofen"
        [("ibuprofen", "DB01050"), ("xibuprofenx", "DB99999")] "regex" 0 1 =
      .ok [("ibuprofen", "DB01050", 100)] ∧
    (List.Sorted (fun x y : DrugMatch => y.2.2 ≤ x.2.2)
        [("ibuprofen", "DB01050", (100 : ℚ))] ∧
      (0 < (1 : ℤ) → (([(("ibuprofen" : String), ("DB01050" : String),
        (100 : ℚ))].length : ℤ) ≤ 1))) :=
  ⟨by decide, claim_C5_sorted_and_capped "ibuprofen"
    [("ibuprofen", "DB01050"), ("xibuprofenx", "DB99999")] "regex" 0 1
    [("ibuprofen", "DB01050", 100)] (by decide)⟩

/-- C9: query normalization is idempotent: `fuzzy_search_drug` applied to `q`
and applied to `q.lower().strip()` return identical results, for every
strategy, catalog, threshold and max_results. -/
theorem claim_C9_normalization_idempotent (query : String) (cat : DrugMap)
    (method : String) (thr : ℚ) (mr : ℤ) :
    fuzzy_search_drug query cat method thr mr =
      fuzzy_search_drug (String.mk (pyNormalize query.toList)) cat method
        thr mr := by
  have h : pyNormalize ((String.mk (pyNormalize query.toList)).toList) =
      pyNormalize query.toList := by
    show pyNormalize (pyNormalize query.toList) = pyNormalize query.toList
    exact pyNormalize_idem _
  unfold fuzzy_search_drug
  rw [h]

/-! ## Error behaviour: C2 and C3 -/

theorem qdiv100_iff (thr : ℚ) :
    (0 ≤ qdiv thr 100 ∧ qdiv thr 100 ≤ 1) ↔ (0 ≤ thr ∧ thr ≤ 100) := by
  rw [qdiv_eq, div_le_one (by norm_num : (0 : ℚ) < 100),
    le_div_iff₀ (by norm_num : (0 : ℚ) < 100)]
  norm_num

theorem extract_limit_nonpos {q : String} {choices : List String} {limit : ℤ}
    (h : limit ≤ 0) : extract q choices limit = [] := by
  unfold extract
  dsimp only
  rw [if_pos h]

theorem pySlice_nil {α : Type} (n : ℤ) : pySlice n ([] : List α) = [] := by
  unfold pySlice
  split <;> simp

theorem core_fw_sentinel {q : String} {cat : DrugMap} {thr : ℚ} {mr : ℤ}
    (h : cat = [] ∨ 100 < thr ∨ mr ≤ 0) :
    fuzzySearchCore q cat "fuzzywuzzy" thr mr = .ok sentinel := by
  rw [core_fw_eq]
  have hnil : (extract q (cat.map (fun p => p.1)) mr).filterMap (fun m =>
      if thr ≤ m.2 then some (m.1, mapGet cat m.1, m.2) else none) = [] := by
    rcases h with rfl | h | h
    · have hex : extract q (List.map (fun p => p.1) ([] : DrugMap)) mr = [] := by
        unfold extract
        dsimp only
        split <;> simp
      rw [hex]
      rfl
    · rw [List.filterMap_eq_nil_iff]
      intro m hm
      rw [if_neg]
      have hv := (extract_mem hm).2
      have hle : m.2 ≤ 100 := by
        rw [hv]
        exact ratioTokenSort_le_100 _ _
      intro hcon
      exact absurd (le_trans hcon hle) (not_le.mpr h)
    · rw [extract_limit_nonpos h]
      rfl
  rw [hnil]
  rfl

theorem core_regex_sentinel {q : String} {cat : DrugMap} {thr : ℚ} {mr : ℤ}
    (h : cat = [] ∨ 100 < thr ∨ mr = 0) :
    fuzzySearchCore q cat "regex" thr mr = .ok sentinel := by
  rw [core_regex_eq]
  rcases h with rfl | h | rfl
  · rw [show List.map (fun p : String × String => p.1) ([] : DrugMap) = []
      from rfl, List.filterMap_nil,
      show List.insertionSort pairScoreGe ([] : List (String × ℚ)) = []
      from rfl, pySlice_nil, List.map_nil]
    rfl
  · have hnil : ((cat.map (fun p => p.1)).filterMap (fun dn =>
        if regexDotStarMatch q.toList dn.toList then
          if thr ≤ qmul (ratioSM q.toList dn.toList) 100 then
            some (dn, qmul (ratioSM q.toList dn.toList) 100)
          else none
        else none)) = [] := by
      rw [List.filterMap_eq_nil_iff]
      intro dn _
      split
      · rw [if_neg]
        intro hcon
        exact absurd (le_trans hcon (scoreSM_le_100 _ _)) (not_le.mpr h)
      · rfl
    rw [hnil,
      show List.insertionSort pairScoreGe ([] : List (String × ℚ)) = []
      from rfl, pySlice_nil, List.map_nil]
    rfl
  · have hsl : pySlice (0 : ℤ) (((cat.map (fun p => p.1)).filterMap (fun dn =>
        if regexDotStarMatch q.toList dn.toList then
          if thr ≤ qmul (ratioSM q.toList dn.toList) 100 then
            some (dn, qmul (ratioSM q.toList dn.toList) 100)
          else none
        else none)).insertionSort pairScoreGe) = [] := by
      unfold pySlice
      rw [if_neg (by omega)]
      simp
    rw [hsl]
    rfl

theorem core_difflib_nNotPositive {q : String} {cat : DrugMap} {thr : ℚ}
    {mr : ℤ} (h : mr ≤ 0) :
    fuzzySearchCore q cat "difflib" thr mr = .error .nNotPositive := by
  rw [core_difflib_eq, gcm_error_nNotPositive h]

theorem core_difflib_cutoff {q : String} {cat : DrugMap} {thr : ℚ} {mr : ℤ}
    (h1 : 0 < mr) (h2 : ¬ (0 ≤ thr ∧ thr ≤ 100)) :
    fuzzySearchCore q cat "difflib" thr mr = .error .cutoffOutOfRange := by
  rw [core_difflib_eq, gcm_error_cutoff h1 ?_]
  rw [qdiv100_iff]
  exact h2

theorem core_difflib_empty_sentinel {q : String} {thr : ℚ} {mr : ℤ}
    (h1 : 0 < mr) (h2 : 0 ≤ thr) (h3 : thr ≤ 100) :
    fuzzySearchCore q [] "difflib" thr mr = .ok sentinel := by
  rw [core_difflib_eq, gcm_ok h1 ((qdiv100_iff thr).mpr ⟨h2, h3⟩)]
  dsimp only
  rw [show (List.map (fun p => p.1) ([] : DrugMap)) = [] from rfl]
  rw [show List.filterMap (fun x : String =>
    if qdiv thr 100 ≤ ratioRealQuick x.toList q.toList ∧
        qdiv thr 100 ≤ ratioQuick x.toList q.toList ∧
        qdiv thr 100 ≤ ratioSM x.toList q.toList
    then some (ratioSM x.toList q.toList, x) else none) [] = [] from rfl]
  rw [show List.insertionSort tupleDescGe ([] : List (ℚ × String)) = []
    from rfl, List.take_nil, List.map_nil, List.map_nil]
  rfl

/-- C2 (corrected): for the fuzzywuzzy strategy an empty catalog, a threshold
above 100 and a non-positive max_results each yield exactly the sentinel.
For the regex strategy an empty catalog, a threshold above 100 and
max_results = 0 yield the sentinel (a negative max_results slices from the
end instead).  For difflib, max_results ≤ 0 raises the `n must be > 0`
ValueError; with positive max_results a threshold outside [0, 100] raises the
cutoff ValueError; an empty catalog with in-range threshold and positive
max_results yields the sentinel. -/
theorem claim_C2_amended (q : String) (cat : DrugMap) (thr : ℚ) (mr : ℤ) :
    ((cat = [] ∨ 100 < thr ∨ mr ≤ 0) →
      fuzzy_search_drug q cat "fuzzywuzzy" thr mr = .ok sentinel) ∧
    ((cat = [] ∨ 100 < thr ∨ mr = 0) →
      fuzzy_search_drug q cat "regex" thr mr = .ok sentinel) ∧
    (mr ≤ 0 →
      fuzzy_search_drug q cat "difflib" thr mr = .error .nNotPositive) ∧
    (0 < mr → ¬ (0 ≤ thr ∧ thr ≤ 100) →
      fuzzy_search_drug q cat "difflib" thr mr = .error .cutoffOutOfRange) ∧
    (cat = [] → 0 ≤ thr → thr ≤ 100 → 0 < mr →
      fuzzy_search_drug q cat "difflib" thr mr = .ok sentinel) := by
  unfold fuzzy_search_drug
  refine ⟨core_fw_sentinel, core_regex_sentinel, core_difflib_nNotPositive,
    core_difflib_cutoff, ?_⟩
  intro hcat h2 h3 h1
  subst hcat
  exact core_difflib_empty_sentinel h1 h2 h3

/-- C2, counterexample to the claim as stated: with the difflib strategy, an
empty catalog and threshold 150 (> 100), the call raises difflib's cutoff
`ValueError` instead of returning the sentinel. -/
theorem claim_C2_counterexample :
    fuzzy_search_drug "aspirin" [] "difflib" 150 5 =
      .error .cutoffOutOfRange := by decide

theorem claim_C2_witness :
    fuzzy_search_drug "q" [] "fuzzywuzzy" 70 5 = .ok sentinel ∧
    fuzzy_search_drug "q" [("abc", "1")] "regex" 150 5 = .ok sentinel ∧
    fuzzy_search_drug "q" [("abc", "1")] "difflib" 70 (-3) =
      .error .nNotPositive :=
  ⟨(claim_C2_amended "q" [] 70 5).1 (Or.inl rfl),
   (claim_C2_amended "q" [("abc", "1")] 150 5).2.1
     (Or.inr (Or.inl (by norm_num))),
   (claim_C2_amended "q" [("abc", "1")] 70 (-3)).2.2.1 (by norm_num)⟩

/-- C3 (corrected): an unrecognized strategy identifier fails with the
`ValueError` naming it and the three valid options, and the fuzzywuzzy and
regex strategies always return normally; but the difflib strategy returns
normally if and only if max_results > 0 and the threshold lies in [0, 100]
(otherwise it raises `difflib.get_close_matches`' own ValueErrors). -/
theorem claim_C3_amended (q : String) (cat : DrugMap) (thr : ℚ) (mr : ℤ) :
    (∀ method : String, method ≠ "fuzzywuzzy" → method ≠ "difflib" →
      method ≠ "regex" →
      fuzzy_search_drug q cat method thr mr =
        .error (.unknownMethod method ["fuzzywuzzy", "difflib", "regex"])) ∧
    (∃ l, fuzzy_search_drug q cat "fuzzywuzzy" thr mr = .ok l) ∧
    (∃ l, fuzzy_search_drug q cat "regex" thr mr = .ok l) ∧
    ((∃ l, fuzzy_search_drug q cat "difflib" thr mr = .ok l) ↔
      (0 < mr ∧ 0 ≤ thr ∧ thr ≤ 100)) := by
  unfold fuzzy_search_drug
  refine ⟨fun method h1 h2 h3 => core_unknown_eq _ _ _ _ _ h1 h2 h3,
    ⟨_, core_fw_eq _ _ _ _⟩, ⟨_, core_regex_eq _ _ _ _⟩, ?_, ?_⟩
  · rintro ⟨l, hl⟩
    by_contra hcon
    rw [not_and_or] at hcon
    rcases hcon with hmr | hthr
    · rw [core_difflib_nNotPositive (by omega)] at hl
      cases hl
    · rw [not_and_or] at hthr
      have hmr' : 0 < mr := by
        by_contra hmr
        rw [core_difflib_nNotPositive (by omega)] at hl
        cases hl
      rw [core_difflib_cutoff hmr' (by tauto)] at hl
      cases hl
  · rintro ⟨h1, h2, h3⟩
    rw [core_difflib_eq, gcm_ok h1 ((qdiv100_iff thr).mpr ⟨h2, h3⟩)]
    exact ⟨_, rfl⟩

/-- C3, counterexample to the claim as stated: `"difflib"` is a valid
strategy identifier, yet the call with max_results = 0 raises (the claim says
a valid identifier returns normally for every max_results). -/
theorem claim_C3_counterexample :
    fuzzy_search_drug "aspirin" [("aspirin", "DB00945")] "difflib" 70 0 =
      .error .nNotPositive := by decide

theorem claim_C3_witness :
    fuzzy_search_drug "x" [("a", "1")] "soundex" 70 5 =
      .error (.unknownMethod "soundex" ["fuzzywuzzy", "difflib", "regex"]) :=
  (claim_C3_amended "x" [("a", "1")] 70 5).1 "soundex" (by decide) (by decide)
    (by decide)

/-! ## C1: the threshold invariant -/

theorem mem_finalize_of_ne {rs l : List DrugMatch} {x : DrugMatch}
    (hl : finalize rs = l) (hns : l ≠ sentinel) (hx : x ∈ l) : x ∈ rs := by
  unfold finalize at hl
  dsimp only at hl
  split at hl
  · exact absurd hl.symm hns
  · rw [← hl] at hx
    exact (List.perm_insertionSort matchScoreGe rs).subset hx

/-- C1 (corrected): when the returned list is not the sentinel, every
member's score reaches the caller's threshold under the fuzzywuzzy and regex
strategies.  Under the difflib strategy every member passed the selection
cutoff `ratio(candidate, query) ≥ threshold/100`, but the reported score is
the ratio with the arguments swapped, scaled by 100 — and
`SequenceMatcher.ratio` is not symmetric, so that score can fall below the
threshold. -/
theorem claim_C1_amended (query : String) (cat : DrugMap) (method : String)
    (thr : ℚ) (mr : ℤ) (l : List DrugMatch)
    (hok : fuzzy_search_drug query cat method thr mr = .ok l)
    (hns : l ≠ sentinel) :
    ∀ x ∈ l,
      ((method = "fuzzywuzzy" ∨ method = "regex") → thr ≤ x.2.2) ∧
      (method = "difflib" →
        qdiv thr 100 ≤ ratioSM x.1.toList (pyNormalize query.toList) ∧
        x.2.2 = qmul (ratioSM (pyNormalize query.toList) x.1.toList) 100) := by
  unfold fuzzy_search_drug at hok
  rcases core_ok_cases hok with hm | hm | hm <;> subst hm
  · rw [core_fw_eq] at hok
    injection hok with hok
    intro x hx
    have hxr := mem_finalize_of_ne hok hns hx
    rw [List.mem_filterMap] at hxr
    obtain ⟨m, _, hsome⟩ := hxr
    refine ⟨fun _ => ?_, fun h => absurd h (by decide)⟩
    split at hsome
    · rename_i hcond
      cases hsome
      exact hcond
    · cases hsome
  · rw [core_difflib_eq] at hok
    rcases hgcm : get_close_matches
        (String.mk (pyNormalize query.toList)).toList
        (cat.map (fun p => p.1)) mr (qdiv thr 100) with e | ms
    · rw [hgcm] at hok
      cases hok
    · rw [hgcm] at hok
      dsimp only at hok
      injection hok with hok
      intro x hx
      have hxr := mem_finalize_of_ne hok hns hx
      have hxr2 := (List.perm_insertionSort matchScoreGe _).subset hxr
      rw [List.mem_map] at hxr2
      obtain ⟨dn, hdn, rfl⟩ := hxr2
      have hc := gcm_mem hgcm hdn
      refine ⟨fun h => absurd h (by simp), fun _ => ⟨?_, rfl⟩⟩
      exact hc.2
  · rw [core_regex_eq] at hok
    injection hok with hok
    intro x hx
    have hxr := mem_finalize_of_ne hok hns hx
    rw [List.mem_map] at hxr
    obtain ⟨p, hp, rfl⟩ := hxr
    have hp2 := (List.perm_insertionSort pairScoreGe _).subset
      (pySlice_subset _ _ hp)
    rw [List.mem_filterMap] at hp2
    obtain ⟨dn, _, hsome⟩ := hp2
    refine ⟨fun _ => ?_, fun h => absurd h (by decide)⟩
    split at hsome
    · split at hsome
      · rename_i hcond
        cases hsome
        exact hcond
      · cases hsome
    · cases hsome

/-- C1, counterexample to the claim as stated: with the difflib strategy,
query `"yysmtxx"`, catalog `{"mqxxryy": "D1"}` and threshold 40, the call
returns the non-sentinel `[("mqxxryy", "D1", 200/7)]`, whose only score
200/7 ≈ 28.6 is below the threshold 40: the candidate was selected because
`ratio("mqxxryy", "yysmtxx") = 3/7 ≥ 0.4`, but the reported score uses
`ratio("yysmtxx", "mqxxryy") = 2/7`, and `SequenceMatcher.ratio` is
asymmetric on this pair. -/
theorem claim_C1_counterexample :
    fuzzy_search_drug "yysmtxx" [("mqxxryy", "D1")] "difflib" 40 5 =
      .ok [("mqxxryy", "D1", mkRat 200 7)] ∧
    ([("mqxxryy", "D1", mkRat 200 7)] : List DrugMatch) ≠ sentinel ∧
    mkRat 200 7 < 40 :=
  ⟨by decide, by decide, by decide⟩

theorem claim_C1_witness :
    fuzzy_search_drug "abcd" [("abcd", "X")] "difflib" 70 5 =
      .ok [("abcd", "X", 100)] ∧
    (∀ x ∈ [(("abcd" : String), ("X" : String), (100 : ℚ))],
      ((("difflib" : String) = "fuzzywuzzy" ∨ ("difflib" : String) = "regex") →
        (70 : ℚ) ≤ x.2.2) ∧
      (("difflib" : String) = "difflib" →
        qdiv 70 100 ≤ ratioSM x.1.toList (pyNormalize "abcd".toList) ∧
        x.2.2 = qmul (ratioSM (pyNormalize "abcd".toList) x.1.toList) 100)) :=
  ⟨by decide, claim_C1_amended "abcd" [("abcd", "X")] "difflib" 70 5
    [("abcd", "X", 100)] (by decide) (by decide)⟩

/-! ## C4: threshold zero with a non-empty catalog -/

theorem extract_ne_nil {q : String} {choices : List String} {limit : ℤ}
    (hc : choices ≠ []) (hlim : 0 < limit) :
    extract q choices limit ≠ [] := by
  unfold extract
  dsimp only
  rw [if_neg (by omega)]
  rcases choices with _ | ⟨c, rest⟩
  · exact absurd rfl hc
  · have hsl : (c :: rest).filterMap (fun c =>
        if 0 ≤ ratioTokenSort (full_process q.toList) c.toList
        then some (c, ratioTokenSort (full_process q.toList) c.toList)
        else none) ≠ [] := by
      rw [List.filterMap_cons, if_pos (ratioTokenSort_nonneg _ _)]
      simp
    intro hcon
    rw [List.take_eq_nil_iff] at hcon
    rcases hcon with hcon | hcon
    · omega
    · have hp := List.perm_insertionSort pairScoreGe ((c :: rest).filterMap
        (fun c =>
          if 0 ≤ ratioTokenSort (full_process q.toList) c.toList
          then some (c, ratioTokenSort (full_process q.toList) c.toList)
          else none))
      rw [hcon] at hp
      exact hsl hp.symm.eq_nil

theorem finalize_ne_nil_entry {rs : List DrugMatch} (h : rs ≠ []) :
    ∃ x ∈ finalize rs, x ∈ rs := by
  unfold finalize
  dsimp only
  split
  · rename_i hnil
    have := (List.perm_insertionSort matchScoreGe rs).length_eq
    rw [hnil] at this
    exact absurd (List.length_eq_zero.mp this.symm) h
  · rename_i hnil
    rcases hs : rs.insertionSort matchScoreGe with _ | ⟨x, xs⟩
    · exact absurd hs hnil
    · have hp := List.perm_insertionSort matchScoreGe rs
      rw [hs] at hp
      exact ⟨x, List.mem_cons_self x xs, hp.subset (List.mem_cons_self x xs)⟩

/-- C4 (corrected): with a non-empty catalog, threshold 0 and positive
max_results, the fuzzywuzzy and difflib strategies always return a real
catalog entry (never just the sentinel); the regex strategy does not — its
candidate filter is a containment test, not a threshold test, and returns the
sentinel whenever the query occurs in no catalog key. -/
theorem claim_C4_amended (q : String) (cat : DrugMap) (mr : ℤ)
    (hcat : cat ≠ []) (hmr : 0 < mr) :
    (∃ l, fuzzy_search_drug q cat "fuzzywuzzy" 0 mr = .ok l ∧
      ∃ x ∈ l, ∃ p ∈ cat, x.1 = p.1) ∧
    (∃ l, fuzzy_search_drug q cat "difflib" 0 mr = .ok l ∧
      ∃ x ∈ l, ∃ p ∈ cat, x.1 = p.1) := by
  have hchoices : cat.map (fun p => p.1) ≠ [] := by
    intro hcon
    rw [List.map_eq_nil_iff] at hcon
    exact hcat hcon
  unfold fuzzy_search_drug
  constructor
  · rw [core_fw_eq]
    refine ⟨_, rfl, ?_⟩
    have hrs : (extract (String.mk (pyNormalize q.toList))
        (cat.map (fun p => p.1)) mr).filterMap (fun m =>
          if (0 : ℚ) ≤ m.2 then some (m.1, mapGet cat m.1, m.2) else none) ≠
        [] := by
      rcases hex : extract (String.mk (pyNormalize q.toList))
          (cat.map (fun p => p.1)) mr with _ | ⟨m, rest⟩
      · exact absurd hex (extract_ne_nil hchoices hmr)
      · have hm2 : (0 : ℚ) ≤ m.2 := by
          have := extract_mem (by rw [hex]; exact List.mem_cons_self m rest)
          rw [this.2]
          exact ratioTokenSort_nonneg _ _
        rw [hex, List.filterMap_cons, if_pos hm2]
        simp
    obtain ⟨x, hxf, hxrs⟩ := finalize_ne_nil_entry hrs
    refine ⟨x, hxf, ?_⟩
    rw [List.mem_filterMap] at hxrs
    obtain ⟨m, hm, hsome⟩ := hxrs
    have hm1 := (extract_mem hm).1
    rw [List.mem_map] at hm1
    obtain ⟨p, hp, hp1⟩ := hm1
    split at hsome
    · cases hsome
      exact ⟨p, hp, hp1.symm⟩
    · cases hsome
  · rw [core_difflib_eq]
    have hq0 : qdiv (0 : ℚ) 100 = 0 := by
      rw [qdiv_eq]
      norm_num
    rw [gcm_ok hmr (by rw [hq0]; norm_num)]
    dsimp only
    refine ⟨_, rfl, ?_⟩
    set w := (String.mk (pyNormalize q.toList)).toList with hw
    have hkept : (cat.map (fun p => p.1)).filterMap (fun x =>
        if qdiv (0 : ℚ) 100 ≤ ratioRealQuick x.toList w ∧
            qdiv (0 : ℚ) 100 ≤ ratioQuick x.toList w ∧
            qdiv (0 : ℚ) 100 ≤ ratioSM x.toList w
        then some (ratioSM x.toList w, x) else none) ≠ [] := by
      rcases hch : cat.map (fun p => p.1) with _ | ⟨c, rest⟩
      · exact absurd hch hchoices
      · rw [hch, List.filterMap_cons, if_pos ?_]
        · simp
        · rw [hq0]
          exact ⟨ratioRealQuick_nonneg _ _, ratioQuick_nonneg _ _,
            ratioSM_nonneg _ _⟩
    have hms : ((((cat.map (fun p => p.1)).filterMap (fun x =>
        if qdiv (0 : ℚ) 100 ≤ ratioRealQuick x.toList w ∧
            qdiv (0 : ℚ) 100 ≤ ratioQuick x.toList w ∧
            qdiv (0 : ℚ) 100 ≤ ratioSM x.toList w
        then some (ratioSM x.toList w, x) else none)).insertionSort
          tupleDescGe).take mr.toNat).map (fun p => p.2) ≠ [] := by
      intro hcon
      rw [List.map_eq_nil_iff, List.take_eq_nil_iff] at hcon
      rcases hcon with hcon | hcon
      · omega
      · have hp := List.perm_insertionSort tupleDescGe
          ((cat.map (fun p => p.1)).filterMap (fun x =>
            if qdiv (0 : ℚ) 100 ≤ ratioRealQuick x.toList w ∧
                qdiv (0 : ℚ) 100 ≤ ratioQuick x.toList w ∧
                qdiv (0 : ℚ) 100 ≤ ratioSM x.toList w
            then some (ratioSM x.toList w, x) else none))
        rw [hcon] at hp
        exact hkept hp.symm.eq_nil
    have hrs : ((((((cat.map (fun p => p.1)).filterMap (fun x =>
        if qdiv (0 : ℚ) 100 ≤ ratioRealQuick x.toList w ∧
            qdiv (0 : ℚ) 100 ≤ ratioQuick x.toList w ∧
            qdiv (0 : ℚ) 100 ≤ ratioSM x.toList w
        then some (ratioSM x.toList w, x) else none)).insertionSort
          tupleDescGe).take mr.toNat).map (fun p => p.2)).map (fun dn =>
            (dn, mapGet cat dn,
              qmul (ratioSM w dn.toList) 100))).insertionSort matchScoreGe ≠
        [] := by
      intro hcon
      have hp := List.perm_insertionSort matchScoreGe
        ((((((cat.map (fun p => p.1)).filterMap (fun x =>
          if qdiv (0 : ℚ) 100 ≤ ratioRealQuick x.toList w ∧
              qdiv (0 : ℚ) 100 ≤ ratioQuick x.toList w ∧
              qdiv (0 : ℚ) 100 ≤ ratioSM x.toList w
          then some (ratioSM x.toList w, x) else none)).insertionSort
            tupleDescGe).take mr.toNat).map (fun p => p.2)).map (fun dn =>
              (dn, mapGet cat dn, qmul (ratioSM w dn.toList) 100)))
      rw [hcon] at hp
      exact hms (List.map_eq_nil_iff.mp hp.symm.eq_nil)
    obtain ⟨x, hxf, hxrs⟩ := finalize_ne_nil_entry hrs
    refine ⟨x, hxf, ?_⟩
    have hxr2 := (List.perm_insertionSort matchScoreGe _).subset hxrs
    rw [List.mem_map] at hxr2
    obtain ⟨dn, hdn, rfl⟩ := hxr2
    rw [List.mem_map] at hdn
    obtain ⟨pr, hpr, rfl⟩ := hdn
    have h1 := List.take_subset _ _ hpr
    have h2 := (List.perm_insertionSort tupleDescGe _).subset h1
    rw [List.mem_filterMap] at h2
    obtain ⟨nm, hnm, hsome⟩ := h2
    rw [List.mem_map] at hnm
    obtain ⟨p, hp, hp1⟩ := hnm
    split at hsome
    · cases hsome
      exact ⟨p, hp, hp1.symm⟩
    · cases hsome

/-- C4, counterexample to the claim as stated: for the regex strategy, a
non-empty catalog and threshold 0 still produce the sentinel whenever the
query occurs in no catalog key (`"b"` is not a substring of `"a"`). -/
theorem claim_C4_counterexample :
    fuzzy_search_drug "b" [("a", "1")] "regex" 0 5 = .ok sentinel := by decide

theorem claim_C4_witness :
    (([("ab", "1")] : DrugMap) ≠ [] ∧ (0 : ℤ) < 5) ∧
    ((∃ l, fuzzy_search_drug "ab" [("ab", "1")] "fuzzywuzzy" 0 5 = .ok l ∧
      ∃ x ∈ l, ∃ p ∈ ([("ab", "1")] : DrugMap), x.1 = p.1) ∧
    (∃ l, fuzzy_search_drug "ab" [("ab", "1")] "difflib" 0 5 = .ok l ∧
      ∃ x ∈ l, ∃ p ∈ ([("ab", "1")] : DrugMap), x.1 = p.1)) :=
  ⟨⟨by decide, by decide⟩,
    claim_C4_amended "ab" [("ab", "1")] 5 (by decide) (by decide)⟩

/-! ## C6: the regex candidate-selection test -/

/-- C6 (corrected): a catalog key passes the candidate-selection test of the
regex strategy if and only if the normalized query appears as a substring of
the key at some position preceded only by non-newline characters — plain
containment for newline-free keys, but an occurrence after a newline is
missed because `.` in the pattern `.*query.*` does not match a newline. -/
theorem claim_C6_amended (q s : List Char) :
    regexDotStarMatch q s = true ↔
      ∃ i, i ≤ s.length ∧ (∀ c ∈ s.take i, c ≠ '\n') ∧ q <+: s.drop i := by
  unfold regexDotStarMatch
  rw [List.any_eq_true]
  constructor
  · rintro ⟨i, hi, hcond⟩
    rw [Bool.and_eq_true, List.all_eq_true, List.isPrefixOf_iff_prefix]
      at hcond
    refine ⟨i, ?_, ?_, hcond.2⟩
    · exact Nat.lt_succ_iff.mp (List.mem_range.mp hi)
    · intro c hc
      have := hcond.1 c hc
      exact of_decide_eq_true this
  · rintro ⟨i, hi, hnl, hpre⟩
    refine ⟨i, List.mem_range.mpr (Nat.lt_succ_iff.mpr hi), ?_⟩
    rw [Bool.and_eq_true, List.all_eq_true, List.isPrefixOf_iff_prefix]
    exact ⟨fun c hc => decide_eq_true (hnl c hc), hpre⟩

/-- C6, counterexample to the claim as stated: query `"b"` is a substring of
the key `"a\nb"`, yet the pattern `.*b.*` does not match it (the leading `.*`
cannot cross the newline), so the containment-iff fails. -/
theorem claim_C6_counterexample :
    regexDotStarMatch "b".toList "a\nb".toList = false ∧
    "b".toList <:+: "a\nb".toList :=
  ⟨by decide, ⟨['a', '\n'], [], by decide⟩⟩

/-! ## C10: queries that normalize to the empty string -/

theorem regexDotStarMatch_nil (s : List Char) :
    regexDotStarMatch [] s = true := by
  unfold regexDotStarMatch
  rw [List.any_eq_true]
  refine ⟨0, by simp, by simp⟩

theorem ratioSM_nil_left {b : List Char} (hb : b ≠ []) : ratioSM [] b = 0 := by
  cases b with
  | nil => exact absurd rfl hb
  | cons c cs =>
    show ratioCalc (matchSum (([] : List Char).length + (c :: cs).length) []
      (c :: cs)) (([] : List Char).length + (c :: cs).length) = 0
    have hl : ([] : List Char).length + (c :: cs).length = cs.length + 1 := by
      simp
    rw [hl]
    unfold matchSum
    dsimp only
    rw [show findLongestMatch [] (c :: cs) = (0, 0, 0) from rfl]
    norm_num
    unfold ratioCalc
    rw [if_neg (by omega)]
    simp [Rat.mkRat_eq_divInt, Rat.zero_divInt]

theorem filterMap_all_some {α β : Type} {f : α → Option β} {g : α → β}
    (h : ∀ a, f a = some (g a)) : ∀ l : List α, l.filterMap f = l.map g := by
  intro l
  induction l with
  | nil => rfl
  | cons a t ih => rw [List.filterMap_cons, h a, List.map_cons, ih]

theorem string_ne_empty_toList {s : String} (h : s ≠ "") : s.toList ≠ [] := by
  intro hcon
  exact h (String.ext hcon)

theorem finalize_eq_of_ne {rs : List DrugMatch} (h : rs ≠ []) :
    finalize rs = rs.insertionSort matchScoreGe := by
  unfold finalize
  dsimp only
  split
  · rename_i hnil
    have hp := List.perm_insertionSort matchScoreGe rs
    rw [hnil] at hp
    exact absurd hp.symm.eq_nil h
  · rfl

theorem finalize_length_of_ne {rs : List DrugMatch} (h : rs ≠ []) :
    (finalize rs).length = rs.length := by
  unfold finalize
  dsimp only
  split
  · rename_i hnil
    have hp := List.perm_insertionSort matchScoreGe rs
    rw [hnil] at hp
    exact absurd hp.symm.eq_nil h
  · exact (List.perm_insertionSort matchScoreGe rs).length_eq

/-- C10 (corrected): when the query normalizes to the empty string, the regex
containment test accepts every catalog key, and — provided every catalog key
is non-empty — every key scores 0, so a positive threshold returns exactly
the sentinel, and threshold 0 with positive max_results returns
min(catalog size, max_results) rows, each a catalog key scored 0.  (A catalog
containing the empty-string key breaks the sentinel part: the empty key
scores 100 against the empty query.) -/
theorem claim_C10_amended (query : String) (cat : DrugMap) (thr : ℚ) (mr : ℤ)
    (hq : pyNormalize query.toList = [])
    (hkeys : ∀ p ∈ cat, p.1 ≠ "") :
    (∀ key : String,
      regexDotStarMatch (pyNormalize query.toList) key.toList = true) ∧
    (0 < thr → fuzzy_search_drug query cat "regex" thr mr = .ok sentinel) ∧
    (cat ≠ [] → 0 < mr →
      ∃ l, fuzzy_search_drug query cat "regex" 0 mr = .ok l ∧
        l.length = min cat.length mr.toNat ∧
        ∀ x ∈ l, x.2.2 = 0 ∧ ∃ p ∈ cat, x.1 = p.1) := by
  have hscore : ∀ dn : String, dn ∈ cat.map (fun p => p.1) →
      qmul (ratioSM (String.mk (pyNormalize query.toList)).toList dn.toList)
        100 = 0 := by
    intro dn hdn
    rw [List.mem_map] at hdn
    obtain ⟨p, hp, hp1⟩ := hdn
    have hne : dn.toList ≠ [] := by
      refine string_ne_empty_toList ?_
      rw [← hp1]
      exact hkeys p hp
    rw [show (String.mk (pyNormalize query.toList)).toList =
      pyNormalize query.toList from rfl, hq, ratioSM_nil_left hne]
    rw [qmul_eq]
    norm_num
  refine ⟨fun key => by rw [hq]; exact regexDotStarMatch_nil _, ?_, ?_⟩
  · intro hthr
    unfold fuzzy_search_drug
    rw [core_regex_eq]
    have hnil : ((cat.map (fun p => p.1)).filterMap (fun dn =>
        if regexDotStarMatch (String.mk (pyNormalize query.toList)).toList
            dn.toList then
          if thr ≤ qmul (ratioSM
              (String.mk (pyNormalize query.toList)).toList dn.toList) 100
          then some (dn, qmul (ratioSM
            (String.mk (pyNormalize query.toList)).toList dn.toList) 100)
          else none
        else none)) = [] := by
      rw [List.filterMap_eq_nil_iff]
      intro dn hdn
      split
      · rw [if_neg]
        rw [hscore dn hdn]
        exact not_le.mpr hthr
      · rfl
    rw [hnil,
      show List.insertionSort pairScoreGe ([] : List (String × ℚ)) = []
      from rfl, pySlice_nil, List.map_nil]
    rfl
  · intro hcat hmr
    unfold fuzzy_search_drug
    rw [core_regex_eq]
    have hall : ∀ dn : String,
        (if regexDotStarMatch (String.mk (pyNormalize query.toList)).toList
            dn.toList then
          if (0 : ℚ) ≤ qmul (ratioSM
              (String.mk (pyNormalize query.toList)).toList dn.toList) 100
          then some (dn, qmul (ratioSM
            (String.mk (pyNormalize query.toList)).toList dn.toList) 100)
          else none
        else none) =
          some (dn, qmul (ratioSM
            (String.mk (pyNormalize query.toList)).toList dn.toList) 100) := by
      intro dn
      rw [if_pos, if_pos (scoreSM_nonneg _ _)]
      rw [show (String.mk (pyNormalize query.toList)).toList =
        pyNormalize query.toList from rfl, hq]
      exact regexDotStarMatch_nil _
    rw [filterMap_all_some hall]
    have hchoices : (cat.map (fun p => p.1)).length = cat.length :=
      List.length_map _ _
    have hslen : ((cat.map (fun p => p.1)).map (fun dn =>
        (dn, qmul (ratioSM (String.mk (pyNormalize query.toList)).toList
          dn.toList) 100))).length = cat.length := by
      rw [List.length_map, hchoices]
    set srt := (((cat.map (fun p => p.1)).map (fun dn =>
      (dn, qmul (ratioSM (String.mk (pyNormalize query.toList)).toList
        dn.toList) 100))).insertionSort pairScoreGe) with hsrt
    have hsrtlen : srt.length = cat.length := by
      rw [hsrt, (List.perm_insertionSort pairScoreGe _).length_eq, hslen]
    have hslice : pySlice mr srt = srt.take mr.toNat := by
      unfold pySlice
      rw [if_neg (by omega)]
    have hslicelen : (pySlice mr srt).length = min cat.length mr.toNat := by
      rw [hslice, List.length_take, hsrtlen, Nat.min_comm]
    have hrsne : (pySlice mr srt).map (fun p : String × ℚ =>
        (p.1, mapGet cat p.1, p.2)) ≠ [] := by
      intro hcon
      have := congrArg List.length hcon
      rw [List.length_map, hslicelen] at this
      rcases cat with _ | ⟨c0, cs⟩
      · exact hcat rfl
      · simp only [List.length_cons, List.length_nil] at this
        omega
    refine ⟨_, rfl, ?_, ?_⟩
    · rw [finalize_length_of_ne hrsne, List.length_map, hslicelen]
    · intro x hx
      rw [finalize_eq_of_ne hrsne] at hx
      have hx2 := (List.perm_insertionSort matchScoreGe _).subset hx
      rw [List.mem_map] at hx2
      obtain ⟨p, hp, rfl⟩ := hx2
      have hp2 : p ∈ srt := by
        rw [hslice] at hp
        exact List.take_subset _ _ hp
      have hp3 := (List.perm_insertionSort pairScoreGe _).subset hp2
      rw [List.mem_map] at hp3
      obtain ⟨dn, hdn, rfl⟩ := hp3
      constructor
      · exact hscore dn hdn
      · rw [List.mem_map] at hdn
        obtain ⟨pp, hpp, hpp1⟩ := hdn
        exact ⟨pp, hpp, hpp1.symm⟩

/-- C10, counterexample to the claim as stated: with the catalog whose only
key is the empty string, a query normalizing to `""` and threshold 50 > 0,
the call returns `[("", "X", 100)]` (the empty key is equal to the empty
query, so the sequence-alignment ratio is 1), not the sentinel. -/
theorem claim_C10_counterexample :
    pyNormalize " ".toList = [] ∧ (0 : ℚ) < 50 ∧
    fuzzy_search_drug " " [("", "X")] "regex" 50 5 = .ok [("", "X", 100)] ∧
    ([("", "X", (100 : ℚ))] : List DrugMatch) ≠ sentinel :=
  ⟨by decide, by decide, by decide, by decide⟩

theorem claim_C10_witness :
    fuzzy_search_drug " " [("ab", "1")] "regex" 50 5 = .ok sentinel :=
  (claim_C10_amended " " [("ab", "1")] 50 5 (by decide)
    (by decide)).2.1 (by norm_num)

/-! ## C8: the token-sort order and full-process idempotence -/

theorem char_eq_of_toNat_eq {a b : Char} (h : a.toNat = b.toNat) : a = b :=
  Char.eq_of_val_eq (UInt32.ext h)

theorem strLtB_irrefl : ∀ l : List Char, strLtB l l = false
  | [] => rfl
  | c :: cs => by
    unfold strLtB
    rw [if_neg (by omega), if_neg (by omega)]
    exact strLtB_irrefl cs

theorem strLtB_trans : ∀ (a b c : List Char), strLtB a b = true →
    strLtB b c = true → strLtB a c = true
  | [], [], _ => fun h1 _ => by simp [strLtB] at h1
  | [], _ :: _, [] => fun _ h2 => by simp [strLtB] at h2
  | [], _ :: _, _ :: _ => fun _ _ => rfl
  | _ :: _, [], _ => fun h1 _ => by simp [strLtB] at h1
  | _ :: _, _ :: _, [] => fun _ h2 => by simp [strLtB] at h2
  | a :: as, b :: bs, c :: cs => fun h1 h2 => by
    unfold strLtB at h1 h2 ⊢
    by_cases h1a : a.toNat < b.toNat
    · by_cases h2a : b.toNat < c.toNat
      · rw [if_pos (by omega)]
      · rw [if_neg h2a] at h2
        by_cases h2b : c.toNat < b.toNat
        · rw [if_pos h2b] at h2
          cases h2
        · rw [if_pos (by omega)]
    · rw [if_neg h1a] at h1
      by_cases h1b : b.toNat < a.toNat
      · rw [if_pos h1b] at h1
        cases h1
      · rw [if_neg h1b] at h1
        by_cases h2a : b.toNat < c.toNat
        · rw [if_pos (by omega)]
        · rw [if_neg h2a] at h2
          by_cases h2b : c.toNat < b.toNat
          · rw [if_pos h2b] at h2
            cases h2
          · rw [if_neg h2b] at h2
            rw [if_neg (by omega), if_neg (by omega)]
            exact strLtB_trans as bs cs h1 h2

theorem strLtB_connex : ∀ (a b : List Char),
    strLtB a b = true ∨ strLtB b a = true ∨ a = b
  | [], [] => Or.inr (Or.inr rfl)
  | [], _ :: _ => Or.inl rfl
  | _ :: _, [] => Or.inr (Or.inl rfl)
  | a :: as, b :: bs => by
    rcases Nat.lt_trichotomy a.toNat b.toNat with h | h | h
    · left
      unfold strLtB
      rw [if_pos h]
    · rcases strLtB_connex as bs with h' | h' | h'
      · left
        unfold strLtB
        rw [if_neg (by omega), if_neg (by omega)]
        exact h'
      · right
        left
        unfold strLtB
        rw [if_neg (by omega), if_neg (by omega)]
        exact h'
      · right
        right
        rw [char_eq_of_toNat_eq h, h']
    · right
      left
      unfold strLtB
      rw [if_pos h]

theorem tokenLe_iff (a b : List Char) : tokenLe a b ↔ strLtB b a = false := by
  unfold tokenLe strLeB
  simp

theorem tokenLe_total (a b : List Char) : tokenLe a b ∨ tokenLe b a := by
  rw [tokenLe_iff, tokenLe_iff]
  by_cases h : strLtB b a = true
  · right
    by_cases h2 : strLtB a b = true
    · have := strLtB_trans _ _ _ h h2
      rw [strLtB_irrefl] at this
      cases this
    · simpa using h2
  · left
    simpa using h

theorem tokenLe_trans (a b c : List Char) (h1 : tokenLe a b)
    (h2 : tokenLe b c) : tokenLe a c := by
  rw [tokenLe_iff] at h1 h2 ⊢
  by_contra hcon
  rw [Bool.not_eq_false] at hcon
  rcases strLtB_connex a b with h | h | h
  · have := strLtB_trans _ _ _ hcon h
    rw [h2] at this
    cases this
  · rw [h1] at h
    cases h
  · rw [h] at hcon
    rw [h2] at hcon
    cases hcon

theorem tokenLe_antisymm (a b : List Char) (h1 : tokenLe a b)
    (h2 : tokenLe b a) : a = b := by
  rw [tokenLe_iff] at h1 h2
  rcases strLtB_connex a b with h | h | h
  · rw [h2] at h
    cases h
  · rw [h1] at h
    cases h
  · exact h

theorem mem_pyStrip {l : List Char} {x : Char} (hx : x ∈ pyStrip l) :
    x ∈ l := by
  unfold pyStrip at hx
  rw [List.mem_reverse] at hx
  have h1 : x ∈ (l.dropWhile pyIsSpace).reverse :=
    (List.dropWhile_suffix pyIsSpace).subset hx
  rw [List.mem_reverse] at h1
  exact (List.dropWhile_suffix pyIsSpace).subset h1

theorem replNonWord_isAscii {c : Char} (hc : isAsciiChar c = true) :
    isAsciiChar (replNonWord c) = true := by
  unfold replNonWord
  split
  · exact hc
  · decide

theorem replNonWord_fix_image (c : Char) :
    replNonWord (pyLowerChar (replNonWord c)) = pyLowerChar (replNonWord c) := by
  by_cases hw : isWordChar c = true
  · have h1 : replNonWord c = c := by
      unfold replNonWord
      rw [if_pos hw]
    rw [h1]
    have h2 : isWordChar (pyLowerChar c) = true := by
      rw [isWordChar_pyLowerChar]
      exact hw
    show replNonWord (pyLowerChar c) = pyLowerChar c
    unfold replNonWord
    rw [if_pos h2]
  · have h1 : replNonWord c = ' ' := by
      unfold replNonWord
      rw [if_neg hw]
    rw [h1]
    decide

theorem mem_full_process {s : List Char} {x : Char} (hx : x ∈ full_process s) :
    ∃ c, isAsciiChar c = true ∧ x = pyLowerChar (replNonWord c) := by
  unfold full_process at hx
  have hx2 := mem_pyStrip hx
  rw [List.mem_map] at hx2
  obtain ⟨y, hy, rfl⟩ := hx2
  rw [List.mem_map] at hy
  obtain ⟨c, hcmem, rfl⟩ := hy
  exact ⟨c, (List.mem_filter.mp hcmem).2, rfl⟩

theorem map_eq_self_of {α : Type} {f : α → α} {l : List α}
    (h : ∀ a ∈ l, f a = a) : l.map f = l := by
  induction l with
  | nil => rfl
  | cons a t ih =>
    rw [List.map_cons, h a (List.mem_cons_self a t),
      ih (fun x hx => h x (List.mem_cons_of_mem a hx))]

theorem full_process_idem (s : List Char) :
    full_process (full_process s) = full_process s := by
  have hfix : ∀ x ∈ full_process s, isAsciiChar x = true ∧
      replNonWord x = x ∧ pyLowerChar x = x := by
    intro x hx
    obtain ⟨c, hc, rfl⟩ := mem_full_process hx
    refine ⟨?_, replNonWord_fix_image c, pyLowerChar_idem _⟩
    rw [isAsciiChar_pyLowerChar]
    exact replNonWord_isAscii hc
  show pyStrip ((((full_process s).filter isAsciiChar).map replNonWord).map
    pyLowerChar) = full_process s
  rw [List.filter_eq_self.mpr (fun a ha => (hfix a ha).1)]
  rw [map_eq_self_of (fun a ha => (hfix a ha).2.1)]
  rw [map_eq_self_of (fun a ha => (hfix a ha).2.2)]
  rw [show full_process s =
    pyStrip (((s.filter isAsciiChar).map replNonWord).map pyLowerChar)
    from rfl]
  exact pyStrip_idem _

theorem process_and_sort_full_process (s : List Char) :
    process_and_sort (full_process s) = process_and_sort s := by
  unfold process_and_sort
  rw [full_process_idem]

theorem insertionSort_tokenLe_eq_of_perm {l1 l2 : List (List Char)}
    (h : l1.Perm l2) :
    l1.insertionSort tokenLe = l2.insertionSort tokenLe := by
  haveI htot : IsTotal (List Char) tokenLe := ⟨tokenLe_total⟩
  haveI htr : IsTrans (List Char) tokenLe :=
    ⟨fun a b c => tokenLe_trans a b c⟩
  haveI has : IsAntisymm (List Char) tokenLe :=
    ⟨fun a b => tokenLe_antisymm a b⟩
  refine List.eq_of_perm_of_sorted ?_ (List.sorted_insertionSort _ _)
    (List.sorted_insertionSort _ _)
  exact (List.perm_insertionSort _ l1).trans
    (h.trans (List.perm_insertionSort _ l2).symm)

theorem process_and_sort_eq_of_perm {s key : List Char}
    (h : (splitWs (full_process s)).Perm (splitWs (full_process key))) :
    process_and_sort s = process_and_sort key := by
  unfold process_and_sort
  rw [insertionSort_tokenLe_eq_of_perm h]

theorem ratioFuzz_self (s : List Char) : ratioFuzz s s = 100 := by
  unfold ratioFuzz
  rw [if_pos rfl]

theorem sorted_head_score_100 {l : List (String × ℚ)}
    (hs : List.Sorted pairScoreGe l) (hb : ∀ p ∈ l, p.2 ≤ 100)
    {p0 : String × ℚ} (hmem : p0 ∈ l) (hp0 : p0.2 = 100) :
    ∃ y ys, l = y :: ys ∧ y.2 = 100 := by
  cases l with
  | nil => cases hmem
  | cons y ys =>
    refine ⟨y, ys, rfl, ?_⟩
    rcases List.mem_cons.mp hmem with rfl | hmem2
    · exact hp0
    · have h1 : pairScoreGe y p0 := List.rel_of_sorted_cons hs p0 hmem2
      have h2 := hb y (List.mem_cons_self y ys)
      unfold pairScoreGe at h1
      rw [hp0] at h1
      linarith

theorem sorted_head_match_100 {l : List DrugMatch}
    (hs : List.Sorted matchScoreGe l) (hb : ∀ x ∈ l, x.2.2 ≤ 100)
    {x0 : DrugMatch} (hmem : x0 ∈ l) (hx0 : x0.2.2 = 100) :
    ∃ y ys, l = y :: ys ∧ y.2.2 = 100 := by
  cases l with
  | nil => cases hmem
  | cons y ys =>
    refine ⟨y, ys, rfl, ?_⟩
    rcases List.mem_cons.mp hmem with rfl | hmem2
    · exact hx0
    · have h1 : matchScoreGe y x0 := List.rel_of_sorted_cons hs x0 hmem2
      have h2 := hb y (List.mem_cons_self y ys)
      unfold matchScoreGe at h1
      rw [hx0] at h1
      linarith

theorem extract_head_100 {q : String} {choices : List String} {mr : ℤ}
    (hmr : 0 < mr) {key : String} (hkey : key ∈ choices)
    (h100 : ratioTokenSort (full_process q.toList) key.toList = 100) :
    ∃ y ys, extract q choices mr = y :: ys ∧ y.2 = 100 := by
  unfold extract
  dsimp only
  rw [if_neg (by omega)]
  set sl := choices.filterMap (fun c =>
    if 0 ≤ ratioTokenSort (full_process q.toList) c.toList
    then some (c, ratioTokenSort (full_process q.toList) c.toList)
    else none) with hsl
  clear_value sl
  have hmem : (key, (100 : ℚ)) ∈ sl := by
    rw [hsl, List.mem_filterMap]
    refine ⟨key, hkey, ?_⟩
    rw [if_pos (by rw [h100]; norm_num), h100]
  have hmem2 : (key, (100 : ℚ)) ∈ sl.insertionSort pairScoreGe :=
    (List.perm_insertionSort pairScoreGe sl).mem_iff.mpr hmem
  have hb : ∀ p ∈ sl.insertionSort pairScoreGe, p.2 ≤ 100 := by
    intro p hp
    have hp2 := (List.perm_insertionSort pairScoreGe sl).subset hp
    rw [hsl, List.mem_filterMap] at hp2
    obtain ⟨c, _, hsome⟩ := hp2
    split at hsome
    · cases hsome
      dsimp only
      exact ratioTokenSort_le_100 (full_process q.toList) c.toList
    · cases hsome
  haveI htot : IsTotal (String × ℚ) pairScoreGe := ⟨fun x y => le_total y.2 x.2⟩
  haveI htr : IsTrans (String × ℚ) pairScoreGe :=
    ⟨fun _ _ _ h1 h2 => le_trans h2 h1⟩
  have hsorted := List.sorted_insertionSort pairScoreGe sl
  obtain ⟨y, ys, heq, hy⟩ := sorted_head_score_100 hsorted hb hmem2 rfl
  obtain ⟨m, hm⟩ : ∃ m, mr.toNat = m + 1 := ⟨mr.toNat - 1, by omega⟩
  rw [heq, hm]
  exact ⟨y, ys.take m, List.take_succ_cons, hy⟩

/-- C8 (corrected): under the token-sort strategy, for every catalog key
whose fully-processed whitespace tokens agree, up to order, with those of the
normalized query (in particular every whitespace-token permutation, such as
key `"acid acetylsalicylic"` and query `"acetylsalicylic acid"`), with
threshold ≤ 100 and positive max_results, the TOP returned match carries
score exactly 100.0.  The original claim's stronger conclusion — that the top
match is that key itself — fails when another key has the same token
multiset, since the tie is broken by catalog order. -/
theorem claim_C8_amended (query : String) (cat : DrugMap) (key id : String)
    (thr : ℚ) (mr : ℤ) (hmem : (key, id) ∈ cat)
    (hperm : (splitWs (full_process (pyNormalize query.toList))).Perm
      (splitWs (full_process key.toList)))
    (hthr : thr ≤ 100) (hmr : 0 < mr) :
    ∃ x xs, fuzzy_search_drug query cat "fuzzywuzzy" thr mr =
      .ok (x :: xs) ∧ x.2.2 = 100 := by
  unfold fuzzy_search_drug
  rw [core_fw_eq]
  have hkey : key ∈ cat.map (fun p => p.1) :=
    List.mem_map.mpr ⟨(key, id), hmem, rfl⟩
  have h100 : ratioTokenSort
      (full_process (String.mk (pyNormalize query.toList)).toList)
      key.toList = 100 := by
    unfold ratioTokenSort
    rw [show (String.mk (pyNormalize query.toList)).toList =
      pyNormalize query.toList from rfl]
    rw [process_and_sort_full_process, process_and_sort_eq_of_perm hperm]
    exact ratioFuzz_self _
  obtain ⟨y, ys, hex, hy⟩ := extract_head_100 hmr hkey h100
  rw [hex, List.filterMap_cons, if_pos (show thr ≤ y.2 by rw [hy]; exact hthr)]
  dsimp only
  set rest := ys.filterMap (fun m =>
    if thr ≤ m.2 then some (m.1, mapGet cat m.1, m.2) else none) with hrest
  set rs := (y.1, mapGet cat y.1, y.2) :: rest with hrs
  clear_value rest
  clear_value rs
  have hb : ∀ x ∈ rs.insertionSort matchScoreGe, x.2.2 ≤ 100 := by
    intro x hx
    have hx2 := (List.perm_insertionSort matchScoreGe rs).subset hx
    rw [hrs] at hx2
    rcases List.mem_cons.mp hx2 with rfl | hx3
    · rw [hy]
    · rw [hrest, List.mem_filterMap] at hx3
      obtain ⟨m, hm, hsome⟩ := hx3
      have hm2 : m ∈ extract (String.mk (pyNormalize query.toList))
          (cat.map (fun p => p.1)) mr := by
        rw [hex]
        exact List.mem_cons_of_mem y hm
      have hmv := (extract_mem hm2).2
      split at hsome
      · cases hsome
        dsimp only
        rw [hmv]
        exact ratioTokenSort_le_100 _ _
      · cases hsome
  have hm100 : ((y.1, mapGet cat y.1, y.2) : DrugMatch) ∈
      rs.insertionSort matchScoreGe := by
    refine (List.perm_insertionSort matchScoreGe rs).mem_iff.mpr ?_
    rw [hrs]
    exact List.mem_cons_self _ _
  obtain ⟨x, xs, hxeq, hx100⟩ := sorted_head_match_100
    (by
      haveI htot : IsTotal DrugMatch matchScoreGe :=
        ⟨fun a b => le_total b.2.2 a.2.2⟩
      haveI htr : IsTrans DrugMatch matchScoreGe :=
        ⟨fun _ _ _ h1 h2 => le_trans h2 h1⟩
      exact List.sorted_insertionSort matchScoreGe rs)
    hb hm100 (by dsimp only; rw [hy])
  refine ⟨x, xs, ?_, hx100⟩
  rw [finalize_eq_of_ne (by rw [hrs]; exact List.cons_ne_nil _ _), hxeq]

theorem claim_C8_witness :
    ∃ x xs, fuzzy_search_drug "acetylsalicylic acid"
      [("acid acetylsalicylic", "DB00945")] "fuzzywuzzy" 70 5 =
        .ok (x :: xs) ∧ x.2.2 = 100 :=
  claim_C8_amended "acetylsalicylic acid" [("acid acetylsalicylic", "DB00945")]
    "acid acetylsalicylic" "DB00945" 70 5 (by decide) (by decide)
    (by norm_num) (by decide)

/-- C8, counterexample to the claim as stated: the query `"a b"` is a
whitespace-token permutation of the catalog key `"b a"`, but the top returned
match is the other key `"a b"` (both score 100 and the stable sort keeps
catalog order), not `"b a"`. -/
theorem claim_C8_counterexample :
    (splitWs "a b".toList).Perm (splitWs "b a".toList) ∧
    fuzzy_search_drug "a b" [("a b", "1"), ("b a", "2")] "fuzzywuzzy" 70 5 =
      .ok [("a b", "1", 100), ("b a", "2", 100)] ∧
    ("a b" : String) ≠ "b a" :=
  ⟨by decide, by decide, by decide⟩

end FuzzySearch
